import Mathlib

/-!
Verification development for the MGeo finetune flywheel address pipeline.

Shallow embedding of:
* `src/data/convert_entity_to_token.py` — `convert_address_to_token` (the Encoder);
* `src/inference_service/convert_tokens_to_entities.py` —
  `AddressFormatter.extract_entities_from_tokens` (the Decoder);
* `src/inference_service/convert_to_11_levels.py` — `classify_elements_to_11_levels`
  (the LevelClassifier).

Strings are modelled as `List Char` (Python `str` indexing is by character);
Python dicts with insertion order are modelled as association lists; the Python
`set` `used_indices` is modelled as a `Finset ℕ`; comparisons that Python
performs on possibly negative numbers (`end - 1 < start`) are done in `ℤ`.
-/

abbrev Chars := List Char

abbrev Tag := List Char

abbrev Sp := Nat × Nat

/-- Python `str.strip()` whitespace test (ASCII whitespace, which is all the
data in this pipeline uses). -/
def isWS (c : Char) : Bool :=
  c = ' ' || c = '\t' || c = '\n' || c = '\r' || c = '\x0b' || c = '\x0c'

/-- Python `s.strip()`. -/
def pyStrip (s : Chars) : Chars :=
  ((s.dropWhile isWS).reverse.dropWhile isWS).reverse

/-- Python `s[a:b]` (with the usual clamping behaviour for out-of-range bounds). -/
def pySlice (l : Chars) (a b : Nat) : Chars := (l.take b).drop a

/-- Does `pat` occur in `addr` at position `i`? -/
def matchAt (addr pat : Chars) (i : Nat) : Bool :=
  decide ((addr.drop i).take pat.length = pat)

/-- Python `addr.find(pat, start)`: the least position `≥ start` at which `pat`
occurs, `none` when there is none (Python returns `-1`). -/
def findFrom (addr pat : Chars) (start : Nat) : Option Nat :=
  ((List.range (addr.length + 1)).filter
    (fun i => decide (start ≤ i) && matchAt addr pat i)).head?

/-! ## Encoder: `convert_address_to_token` -/

/-- One element of the Python `entity_positions` list: a located span
`{'start':…, 'end':…, 'text':…, 'type':…}`. -/
structure Ent where
  start : Nat
  stop : Nat
  text : Chars
  ty : Chars
deriving DecidableEq, Repr

/-- Locating one candidate entity string: `original_address.find(entity)`,
recording the span on success. -/
def locateEnt (addr : Chars) (k ent : Chars) : Option Ent :=
  match findFrom addr ent 0 with
  | some s => some ⟨s, s + ent.length, ent, k⟩
  | none => none

/-- Splitting one component value into candidate entity strings
(`component_value.split(',')` with `strip` on each piece when a comma is
present, otherwise the raw value). -/
def piecesOf (v : Chars) : List Chars :=
  if ',' ∈ v then (v.splitOn ',').map pyStrip else [v]

/-- The `entity_positions` list built by the first loop of
`convert_address_to_token` (falsy component values are skipped, empty candidate
strings are skipped, candidates not found in the address are skipped). -/
def entityPositionsOf (comps : List (Chars × Chars)) (addr : Chars) : List Ent :=
  comps.flatMap (fun kv =>
    if kv.2 = [] then []
    else (piecesOf kv.2).filterMap (fun ent =>
      if ent = [] then none else locateEnt addr kv.1 ent))

/-- The sort key relation of `entity_positions.sort(key=lambda x: x['start'])`. -/
def entLE (a b : Ent) : Prop := a.start ≤ b.start

instance : DecidableRel entLE := fun a b => Nat.decLe a.start b.start

instance : IsTotal Ent entLE := ⟨fun a b => Nat.le_total a.start b.start⟩

instance : IsTrans Ent entLE := ⟨fun _ _ _ h h' => Nat.le_trans h h'⟩

/-- A stable sort by start offset (Python `list.sort` is stable). -/
def sortEnts (l : List Ent) : List Ent := List.insertionSort entLE l

def oTag : Tag := ['O']

def bTag (ty : Chars) : Tag := 'B' :: '-' :: ty

def iTag (ty : Chars) : Tag := 'I' :: '-' :: ty

def eTag (ty : Chars) : Tag := 'E' :: '-' :: ty

def sTag (ty : Chars) : Tag := 'S' :: '-' :: ty

/-- The BIOES tag the encoder assigns to character `i` of an entity of length
`len`. -/
def tagOfPos (ty : Chars) (len i : Nat) : Tag :=
  if len = 1 then sTag ty
  else if i = 0 then bTag ty
  else if i = len - 1 then eTag ty
  else iTag ty

/-- The `(token, tag)` pairs appended for one entity
(`for i, char in enumerate(entity_text)`). -/
def emitEntity (e : Ent) : List (Char × Tag) :=
  e.text.enum.map (fun ic => (ic.2, tagOfPos e.ty e.text.length ic.1))

/-- The main emission loop of `convert_address_to_token`: the `O`-tagged gap
before each entity, then the full entity, threading `current_pos`.  Returns the
emitted pairs and the final `current_pos`. -/
def emitLoop (addr : Chars) : Nat → List Ent → List (Char × Tag) × Nat
  | pos, [] => ([], pos)
  | pos, e :: rest =>
    let gap : List (Char × Tag) :=
      if pos < e.start then (pySlice addr pos e.start).map (fun c => (c, oTag)) else []
    let r := emitLoop addr e.stop rest
    (gap ++ emitEntity e ++ r.1, r.2)

/-- All `(token, tag)` pairs produced by `convert_address_to_token`, including
the trailing `O`-tagged remainder. -/
def convertPairs (comps : List (Chars × Chars)) (addr : Chars) : List (Char × Tag) :=
  let r := emitLoop addr 0 (sortEnts (entityPositionsOf comps addr))
  r.1 ++ (if r.2 < addr.length then (addr.drop r.2).map (fun c => (c, oTag)) else [])

/-- The `result` dictionary returned by `convert_address_to_token`. -/
structure TaggedSeq where
  tokens : List Char
  ner_tags : List Tag
  text : Chars
deriving DecidableEq, Repr

/-- `convert_address_to_token(address_components, original_address)`. -/
def convert_address_to_token (comps : List (Chars × Chars)) (addr : Chars) : TaggedSeq :=
  ⟨(convertPairs comps addr).map Prod.fst, (convertPairs comps addr).map Prod.snd, addr⟩

/-! ## Decoder: `extract_entities_from_tokens` -/

/-- Python `tag.startswith(k + '-')` for a single marker character `k`. -/
def startsTag (k : Char) : Tag → Bool
  | c :: d :: _ => decide (c = k) && decide (d = '-')
  | _ => false

/-- Python `t.split('-', 1)[1]`: everything after the first `'-'`. -/
def afterFirstDash (t : Tag) : Chars := (t.dropWhile (fun c => !(c = '-'))).drop 1

/-- Python `t.split('-', 1)[1] if '-' in t else t`, the category extraction the
decoder applies when flushing. -/
def flushCat (t : Tag) : Chars := if '-' ∈ t then afterFirstDash t else t

/-- The `entities` dictionary: category → list of value strings, in insertion
order. -/
abbrev EntDict := List (Chars × List Chars)

/-- `entities.setdefault(cat, []).append(v)` (the idiom the decoder uses). -/
def addEnt : EntDict → Chars → Chars → EntDict
  | [], c, v => [(c, [v])]
  | (k, vs) :: rest, c, v =>
    if k = c then (k, vs ++ [v]) :: rest else (k, vs) :: addEnt rest c v

/-- Lookup of a category's value list (empty when the key is absent). -/
def getVals : EntDict → Chars → List Chars
  | [], _ => []
  | (k, vs) :: rest, c => if k = c then vs else getVals rest c

/-- The decoder's loop state: `entities`, `current_entity`, `current_tokens`. -/
structure DecState where
  ents : EntDict
  cur : Option Tag
  toks : List Char
deriving DecidableEq, Repr

/-- `if current_entity and current_tokens: entities[…].append(…)` — the flush
the decoder performs on a boundary violation and at the end of input. -/
def flushState (ents : EntDict) (cur : Option Tag) (toks : List Char) : EntDict :=
  match cur with
  | some ce => if toks = [] then ents else addEnt ents (flushCat ce) toks
  | none => ents

/-- One iteration of the decoder's `for token, tag in zip(tokens, ner_tags)`
loop. -/
def decodeStep (st : DecState) (p : Char × Tag) : DecState :=
  if startsTag 'B' p.2 || startsTag 'S' p.2 then
    let ents1 := flushState st.ents st.cur st.toks
    if startsTag 'S' p.2 then
      ⟨addEnt ents1 (afterFirstDash p.2) [p.1], none, []⟩
    else
      ⟨ents1, some p.2, [p.1]⟩
  else if startsTag 'I' p.2 && st.cur.isSome then
    ⟨st.ents, st.cur, st.toks ++ [p.1]⟩
  else if startsTag 'E' p.2 && st.cur.isSome then
    match st.cur with
    | some ce => ⟨addEnt st.ents (flushCat ce) (st.toks ++ [p.1]), none, []⟩
    | none => st
  else
    ⟨flushState st.ents st.cur st.toks, none, []⟩

/-- `AddressFormatter.extract_entities_from_tokens(tokens, ner_tags)`. -/
def extract_entities_from_tokens (tokens : List Char) (tags : List Tag) : EntDict :=
  let fin := (tokens.zip tags).foldl decodeStep ⟨[], none, []⟩
  flushState fin.ents fin.cur fin.toks

/-! ## LevelClassifier: `classify_elements_to_11_levels` -/

/-- Does the window `[p, e)` hit any already-used index?
(`any(i in range(pos, end) for i in used_indices)`). -/
def conflictsWith (used : Finset ℕ) (p e : Nat) : Bool :=
  decide ((used ∩ Finset.Ico p e).Nonempty)

/-- The recursive `find_value(value, start)` helper, with an explicit recursion
bound.  The bound is only a termination device: `findValueAux_fuel` below shows
any bound `≥ addr.length + 1 - start` gives the same result, and the Python
recursion makes at most that many calls (each recursive call strictly increases
`start` while `start` stays `≤ len(addr)`). -/
def findValueAux (addr pat : Chars) (used : Finset ℕ) : Nat → Nat → Option Sp
  | _, 0 => none
  | start, fuel + 1 =>
    match findFrom addr pat start with
    | none => none
    | some pos =>
      if conflictsWith used pos (pos + pat.length) then
        findValueAux addr pat used (pos + pat.length) fuel
      else
        some (pos, pos + pat.length)

/-- `find_value(value, start)` of `classify_elements_to_11_levels`. -/
def findValue (addr pat : Chars) (used : Finset ℕ) (start : Nat) : Option Sp :=
  findValueAux addr pat used start (addr.length + 1)

/-- The `indices` mapping: key → located spans (a Python dict in insertion
order). -/
abbrev Indices := List (Chars × List Sp)

def lookupIdx : Indices → Chars → Option (List Sp)
  | [], _ => none
  | (k, v) :: rest, c => if k = c then some v else lookupIdx rest c

/-- Association-list lookup for the input `entities` dict. -/
def assocLookup : List (Chars × Chars) → Chars → Option Chars
  | [], _ => none
  | (k, v) :: rest, c => if k = c then some v else assocLookup rest c

/-- Inner loop body for a comma-separated value: locate one stripped piece and
record it, extending the used-index set on success. -/
def commaStep (addr : Chars) : (List Sp × Finset ℕ) → Chars → (List Sp × Finset ℕ) :=
  fun acc v =>
    match findValue addr v acc.2 0 with
    | some pe => (acc.1 ++ [pe], acc.2 ∪ Finset.Ico pe.1 pe.2)
    | none => acc

/-- Outer loop body of the index-building pass (`for key, value in
entities.items()`): a comma-separated value always creates an entry (possibly
with an empty span list); a plain value creates an entry only when located. -/
def indicesStep (addr : Chars) : (Indices × Finset ℕ) → (Chars × Chars) → (Indices × Finset ℕ) :=
  fun st kv =>
    if ',' ∈ kv.2 then
      let r := ((kv.2.splitOn ',').map pyStrip).foldl (commaStep addr) ([], st.2)
      (st.1 ++ [(kv.1, r.1)], r.2)
    else
      match findValue addr kv.2 st.2 0 with
      | some pe => (st.1 ++ [(kv.1, [pe])], st.2 ∪ Finset.Ico pe.1 pe.2)
      | none => st

/-- The `(indices, used_indices)` state after the index-building pass. -/
def indicesUsedOf (entities : List (Chars × Chars)) (addr : Chars) : Indices × Finset ℕ :=
  entities.foldl (indicesStep addr) ([], ∅)

def indicesOf (entities : List (Chars × Chars)) (addr : Chars) : Indices :=
  (indicesUsedOf entities addr).1

/-- All spans recorded under any key of `keys`, in the iteration order
`for key in keys: for (start, end) in indices[key]`. -/
def spansFor (idx : Indices) (keys : List Chars) : List Sp :=
  keys.flatMap (fun k => (lookupIdx idx k).getD [])

/-- `min`-selection by start offset, first minimum kept (the
`if acc is None or start < acc[0]` folds of the classifier). -/
def minByStart (l : List Sp) : Option Sp :=
  l.foldl (fun acc s =>
    match acc with
    | none => some s
    | some m => if s.1 < m.1 then some s else acc) none

/-- `max`-selection by start offset, first maximum kept. -/
def maxByStart (l : List Sp) : Option Sp :=
  l.foldl (fun acc s =>
    match acc with
    | none => some s
    | some m => if s.1 > m.1 then some s else acc) none

/-- `max`-selection by end offset, first maximum kept (Python
`max(valid, key=lambda x: x[1])`). -/
def maxByEnd (l : List Sp) : Option Sp :=
  l.foldl (fun acc s =>
    match acc with
    | none => some s
    | some m => if s.2 > m.2 then some s else acc) none

/-- `valid = [x for x in latest_keys if x]; max(valid, key=λx: x[1]) if valid
else None`. -/
def latestMax (l : List (Option Sp)) : Option Sp := maxByEnd (l.filterMap id)

def poiCats : List Chars :=
  ["poi".toList, "subpoi".toList, "community".toList, "devzone".toList, "village_group".toList]

def adminCats : List Chars :=
  ["prov".toList, "city".toList, "district".toList, "town".toList]

def rdCats : List Chars := ["road".toList, "direction".toList]

def additionalCats : List Chars :=
  ["poi".toList, "subpoi".toList, "road".toList, "roadno".toList, "direction".toList,
   "community".toList, "devzone".toList, "village_group".toList, "houseno".toList]

def roadnoCats : List Chars := ["roadno".toList]

def cellnoCats : List Chars := ["cellno".toList]

def floornoCats : List Chars := ["floorno".toList]

def roomnoCats : List Chars := ["roomno".toList]

def housenoCats : List Chars := ["houseno".toList]

def poiMinIndexOf (idx : Indices) : Option Sp := minByStart (spansFor idx poiCats)

def adminMaxIndexOf (idx : Indices) : Option Sp := maxByStart (spansFor idx adminCats)

/-- Python `m[1] - 1 < s[0]` (computed over ℤ: `m.2 - 1` may be `-1`). -/
def afterEnd (m : Sp) (s : Sp) : Bool := decide ((m.2 : ℤ) - 1 < (s.1 : ℤ))

/-- Python `s[0] < p[0]`. -/
def beforeStart (p : Sp) (s : Sp) : Bool := decide (s.1 < p.1)

/-- The spans a level step selects from: all spans of the given keys meeting
the step's positional condition. -/
def eligOf (idx : Indices) (keys : List Chars) (cond : Sp → Bool) : List Sp :=
  (spansFor idx keys).filter cond

/-- `addr[min[0]:max[1]].strip()` guarded by `if min_x or max_x:`. -/
def sliceLevel (addr : Chars) (l : List Sp) : Chars :=
  match minByStart l, maxByStart l with
  | some m, some M => pyStrip (pySlice addr m.1 M.2)
  | _, _ => []

/-- Levels 5–11 of the classifier, bundled. -/
structure MidLevels where
  l5 : Chars
  l6 : Chars
  l7 : Chars
  l8 : Chars
  l9 : Chars
  l10 : Chars
  l11 : Chars
deriving DecidableEq, Repr

/-- Branch of `classify_elements_to_11_levels` with a POI anchor `p`
(lines 92–238). -/
def poiLevels (addr : Chars) (idx : Indices) (p : Sp) (adminMax : Option Sp) : MidLevels :=
  let l7 := pyStrip (pySlice addr p.1 p.2)
  let rdElig :=
    match adminMax with
    | some a => eligOf idx rdCats (fun s => afterEnd a s && beforeStart p s)
    | none => eligOf idx rdCats (fun s => beforeStart p s)
  let l5 := sliceLevel addr rdElig
  let maxRd := maxByStart rdElig
  let roadnoElig :=
    match maxRd, adminMax with
    | some M, _ => eligOf idx roadnoCats (fun s => afterEnd M s && beforeStart p s)
    | none, some a => eligOf idx roadnoCats (fun s => afterEnd a s && beforeStart p s)
    | none, none => eligOf idx roadnoCats (fun s => beforeStart p s)
  let l6 := sliceLevel addr roadnoElig
  let maxRoadno := maxByStart roadnoElig
  let addElig := eligOf idx additionalCats (fun s => afterEnd p s)
  let l8 := sliceLevel addr addElig
  let maxAdd := maxByStart addElig
  let cellElig :=
    match maxAdd with
    | some M => eligOf idx cellnoCats (fun s => afterEnd M s)
    | none => eligOf idx cellnoCats (fun s => afterEnd p s)
  let l9 := sliceLevel addr cellElig
  let maxCell := maxByStart cellElig
  match latestMax [adminMax, maxRd, maxRoadno, some p, maxAdd, maxCell] with
  | none => ⟨l5, l6, l7, l8, l9, [], []⟩
  | some m =>
    let floorElig := eligOf idx floornoCats (fun s => afterEnd m s)
    let l10 := sliceLevel addr floorElig
    let maxFloor := maxByStart floorElig
    match latestMax [adminMax, maxRd, maxRoadno, some p, maxAdd, maxCell, maxFloor] with
    | none => ⟨l5, l6, l7, l8, l9, l10, []⟩
    | some m2 => ⟨l5, l6, l7, l8, l9, l10, sliceLevel addr (eligOf idx roomnoCats (fun s => afterEnd m2 s))⟩

/-- Branch with no POI anchor but an admin anchor `a` (lines 249–369). -/
def noPoiAdminLevels (addr : Chars) (idx : Indices) (a : Sp) : MidLevels :=
  let rdElig := eligOf idx rdCats (fun s => afterEnd a s)
  let l5 := sliceLevel addr rdElig
  let maxRd := maxByStart rdElig
  let roadnoElig :=
    match maxRd with
    | some M => eligOf idx roadnoCats (fun s => afterEnd M s)
    | none => eligOf idx roadnoCats (fun s => afterEnd a s)
  let l6 := sliceLevel addr roadnoElig
  let maxRoadno := maxByStart roadnoElig
  match latestMax [some a, maxRd, maxRoadno] with
  | none => ⟨l5, l6, [], [], [], [], []⟩
  | some m =>
    let houseElig := eligOf idx housenoCats (fun s => afterEnd m s)
    let l8 := sliceLevel addr houseElig
    let maxHouse := maxByStart houseElig
    match latestMax [some a, maxRd, maxRoadno, maxHouse] with
    | none => ⟨l5, l6, [], l8, [], [], []⟩
    | some m2 =>
      let cellElig := eligOf idx cellnoCats (fun s => afterEnd m2 s)
      let l9 := sliceLevel addr cellElig
      let maxCell := maxByStart cellElig
      match latestMax [some a, maxRd, maxRoadno, maxHouse, maxCell] with
      | none => ⟨l5, l6, [], l8, l9, [], []⟩
      | some m3 =>
        let floorElig := eligOf idx floornoCats (fun s => afterEnd m3 s)
        let l10 := sliceLevel addr floorElig
        let maxFloor := maxByStart floorElig
        match latestMax [some a, maxRd, maxRoadno, maxHouse, maxCell, maxFloor] with
        | none => ⟨l5, l6, [], l8, l9, l10, []⟩
        | some m4 =>
          ⟨l5, l6, [], l8, l9, l10, sliceLevel addr (eligOf idx roomnoCats (fun s => afterEnd m4 s))⟩

/-- Branch with neither POI nor admin anchor (lines 372–403). -/
def noAnchorLevels (addr : Chars) (idx : Indices) : MidLevels :=
  let rdAll := spansFor idx rdCats
  let l5 := sliceLevel addr rdAll
  let maxRd := maxByStart rdAll
  let roadnoElig :=
    match maxRd with
    | some M => eligOf idx roadnoCats (fun s => afterEnd M s)
    | none => spansFor idx roadnoCats
  ⟨l5, sliceLevel addr roadnoElig, [], [], [], [], []⟩

/-- The `used_indices_final` set recomputed from `indices` (lines 421–424). -/
def usedFinalOf (idx : Indices) : Finset ℕ :=
  idx.foldl (fun u kv => kv.2.foldl (fun u2 s => u2 ∪ Finset.Ico s.1 s.2) u) ∅

/-- `remaining_parts = [addr[i] for i in range(len(addr)) if i not in
used_indices_final]`. -/
def remainingOf (addr : Chars) (idx : Indices) : Chars :=
  ((List.range addr.length).filter (fun i => !(decide (i ∈ usedFinalOf idx)))).map
    (fun i => addr.getD i ' ')

/-- The record `classify_elements_to_11_levels` returns. -/
structure LevelRec where
  level1 : Chars
  level2 : Chars
  level3 : Chars
  level4 : Chars
  level5 : Chars
  level6 : Chars
  level7 : Chars
  level8 : Chars
  level9 : Chars
  level10 : Chars
  level11 : Chars
  remark : Chars
  original_text : Chars
  error : Option Chars
deriving DecidableEq, Repr

/-- The `try:` body of `classify_elements_to_11_levels` (which, on the typed
inputs modelled here, always succeeds). -/
def classifyBody (entities : List (Chars × Chars)) (addr : Chars) : LevelRec :=
  let idx := indicesOf entities addr
  let mid :=
    match poiMinIndexOf idx with
    | some p => poiLevels addr idx p (adminMaxIndexOf idx)
    | none =>
      match adminMaxIndexOf idx with
      | some a => noPoiAdminLevels addr idx a
      | none => noAnchorLevels addr idx
  { level1 := (assocLookup entities "prov".toList).getD "广东省".toList
    level2 := (assocLookup entities "city".toList).getD []
    level3 := (assocLookup entities "district".toList).getD []
    level4 := (assocLookup entities "town".toList).getD []
    level5 := mid.l5
    level6 := mid.l6
    level7 := mid.l7
    level8 := mid.l8
    level9 := mid.l9
    level10 := mid.l10
    level11 := mid.l11
    remark := pyStrip (remainingOf addr idx)
    original_text := addr
    error := none }

/-- The `except Exception as e:` handler (lines 434–451): any failure of the
body is converted into an all-empty record that preserves `original_text` and
carries the failure description. -/
def classifyCatch (r : Except Chars LevelRec) (original_text : Chars) : LevelRec :=
  match r with
  | Except.ok v => v
  | Except.error e =>
    { level1 := [], level2 := [], level3 := [], level4 := [], level5 := [],
      level6 := [], level7 := [], level8 := [], level9 := [], level10 := [],
      level11 := [], remark := [], original_text := original_text, error := some e }

/-- `classify_elements_to_11_levels(entities, original_text)`. -/
def classify_elements_to_11_levels (entities : List (Chars × Chars)) (addr : Chars) : LevelRec :=
  classifyCatch (Except.ok (classifyBody entities addr)) addr

/-! ## Basic lemmas: slices and substring search -/

theorem pySlice_eq (l : Chars) (a b : Nat) : pySlice l a b = (l.drop a).take (b - a) := by
  simp [pySlice, List.drop_take]

theorem pySlice_nil (l : Chars) (a : Nat) : pySlice l a a = [] := by
  simp [pySlice_eq]

theorem pySlice_append (l : Chars) {a b c : Nat} (hab : a ≤ b) (hbc : b ≤ c) :
    pySlice l a b ++ pySlice l b c = pySlice l a c := by
  unfold pySlice
  have h1 : l.take b = (l.take c).take b := by rw [List.take_take, Nat.min_eq_left hbc]
  rw [h1]
  by_cases h2 : (l.take c).length ≤ a
  · have e1 : (l.take c).drop a = [] := List.drop_eq_nil_of_le h2
    have e2 : ((l.take c).take b).drop a = [] := List.drop_eq_nil_of_le
      (by rw [List.length_take]; omega)
    have e3 : (l.take c).drop b = [] := List.drop_eq_nil_of_le (by omega)
    rw [e1, e2, e3]
    rfl
  · push_neg at h2
    conv_rhs => rw [← List.take_append_drop b (l.take c)]
    rw [List.drop_append_eq_append_drop]
    have : a - ((l.take c).take b).length = 0 := by rw [List.length_take]; omega
    rw [this, List.drop_zero]

theorem findFrom_some {addr pat : Chars} {start p : Nat}
    (h : findFrom addr pat start = some p) :
    start ≤ p ∧ p + pat.length ≤ addr.length ∧ pySlice addr p (p + pat.length) = pat := by
  have hmem : p ∈ (List.range (addr.length + 1)).filter
      (fun i => decide (start ≤ i) && matchAt addr pat i) := List.mem_of_mem_head? h
  rw [List.mem_filter] at hmem
  obtain ⟨hr, hcond⟩ := hmem
  rw [List.mem_range] at hr
  simp only [Bool.and_eq_true, decide_eq_true_eq] at hcond
  obtain ⟨h1, h2⟩ := hcond
  unfold matchAt at h2
  rw [decide_eq_true_eq] at h2
  have hlen : pat.length ≤ addr.length - p := by
    have hl := congrArg List.length h2
    rw [List.length_take, List.length_drop] at hl
    omega
  refine ⟨h1, by omega, ?_⟩
  rw [pySlice_eq]
  simpa using h2

/-- The disjointness relation on located spans the spec's invariant speaks of. -/
def SpDisj (a b : Ent) : Prop := a.stop ≤ b.start ∨ b.stop ≤ a.start

instance : DecidableRel SpDisj := fun a b => by unfold SpDisj; infer_instance

theorem mem_entityPositions {comps : List (Chars × Chars)} {addr : Chars} {e : Ent}
    (h : e ∈ entityPositionsOf comps addr) :
    e.text ≠ [] ∧ findFrom addr e.text 0 = some e.start ∧ e.stop = e.start + e.text.length := by
  rw [entityPositionsOf, List.mem_flatMap] at h
  obtain ⟨kv, _, hmem⟩ := h
  split at hmem
  · simp at hmem
  · rw [List.mem_filterMap] at hmem
    obtain ⟨ent, _, hent⟩ := hmem
    split at hent
    · simp at hent
    · rename_i hne
      unfold locateEnt at hent
      split at hent
      · rename_i s hs
        cases hent
        exact ⟨hne, hs, rfl⟩
      · simp at hent

theorem ent_spec {comps : List (Chars × Chars)} {addr : Chars} {e : Ent}
    (h : e ∈ entityPositionsOf comps addr) :
    e.start < e.stop ∧ e.stop ≤ addr.length ∧ e.text = pySlice addr e.start e.stop := by
  obtain ⟨hne, hf, hstop⟩ := mem_entityPositions h
  obtain ⟨-, hle, hsl⟩ := findFrom_some hf
  have hpos : 0 < e.text.length := List.length_pos.mpr hne
  refine ⟨by omega, by omega, ?_⟩
  rw [hstop]
  exact hsl.symm

/-! ## The emission loop -/

theorem enumFrom_map_fst (f : Nat → Tag) :
    ∀ (l : Chars) (n : Nat), ((List.enumFrom n l).map (fun ic => (ic.2, f ic.1))).map Prod.fst = l
  | [], _ => rfl
  | c :: rest, n => by
    rw [List.enumFrom_cons]
    simpa using enumFrom_map_fst f rest (n + 1)

theorem emitEntity_fst (e : Ent) : (emitEntity e).map Prod.fst = e.text :=
  enumFrom_map_fst (tagOfPos e.ty e.text.length) e.text 0

/-- The precondition under which the emission loop walks the address strictly
left to right: each entity starts no earlier than the current position, spans
lie inside the address, and each entity's text is the corresponding slice. -/
def UpChain (addr : Chars) : Nat → List Ent → Prop
  | _, [] => True
  | pos, e :: rest =>
    pos ≤ e.start ∧ e.start < e.stop ∧ e.stop ≤ addr.length ∧
      e.text = pySlice addr e.start e.stop ∧ UpChain addr e.stop rest

theorem emitLoop_spec (addr : Chars) :
    ∀ (l : List Ent) (pos : Nat), UpChain addr pos l → pos ≤ addr.length →
      (emitLoop addr pos l).1.map Prod.fst = pySlice addr pos (emitLoop addr pos l).2 ∧
      pos ≤ (emitLoop addr pos l).2 ∧ (emitLoop addr pos l).2 ≤ addr.length
  | [], pos, _, hpos => by
    refine ⟨?_, le_refl _, hpos⟩
    simp [emitLoop, pySlice_nil]
  | e :: rest, pos, hchain, _ => by
    obtain ⟨h1, h2, h3, h4, hrest⟩ := hchain
    obtain ⟨ih1, ih2, ih3⟩ := emitLoop_spec addr rest e.stop hrest h3
    have hgap : (if pos < e.start then (pySlice addr pos e.start).map (fun c => (c, oTag))
        else []).map Prod.fst = pySlice addr pos e.start := by
      split
      · rw [List.map_map]
        exact List.map_congr_left (fun c _ => rfl) |>.trans (List.map_id _)
      · have : pos = e.start := by omega
        rw [this, pySlice_nil]
        rfl
    refine ⟨?_, by simpa [emitLoop] using by omega, by simpa [emitLoop] using ih3⟩
    show (_ ++ emitEntity e ++ (emitLoop addr e.stop rest).1).map Prod.fst = _
    rw [List.map_append, List.map_append, hgap, emitEntity_fst, ih1, h4]
    show _ = pySlice addr pos (emitLoop addr e.stop rest).2
    rw [List.append_assoc]
    rw [pySlice_append addr (le_of_lt h2) ih2, pySlice_append addr h1 (le_trans (le_of_lt h2) ih2)]

theorem map_fst_pairs (l : Chars) (t : Tag) : (l.map (fun c => (c, t))).map Prod.fst = l := by
  rw [List.map_map]
  exact List.map_congr_left (fun c _ => rfl) |>.trans (List.map_id _)

theorem sortEnts_perm (l : List Ent) : (sortEnts l).Perm l := List.perm_insertionSort entLE l

theorem sortEnts_pairwise_le (l : List Ent) : List.Pairwise entLE (sortEnts l) :=
  List.sorted_insertionSort entLE l

theorem upChain_of (addr : Chars) :
    ∀ (l : List Ent) (pos : Nat),
      List.Pairwise (fun a b => a.stop ≤ b.start) l →
      (∀ e ∈ l, e.start < e.stop ∧ e.stop ≤ addr.length ∧ e.text = pySlice addr e.start e.stop) →
      (∀ e ∈ l.head?, pos ≤ e.start) → UpChain addr pos l
  | [], _, _, _, _ => trivial
  | e :: rest, pos, hp, hmem, hhead => by
    obtain ⟨h1, h2, h3⟩ := hmem e (List.mem_cons_self e rest)
    refine ⟨hhead e rfl, h1, h2, h3, ?_⟩
    refine upChain_of addr rest e.stop hp.of_cons
      (fun f hf => hmem f (List.mem_cons_of_mem _ hf)) ?_
    intro f hf
    exact List.rel_of_pairwise_cons hp (List.mem_of_mem_head? hf)

/-- C1 (amended): provided the located spans are pairwise non-overlapping, the
Encoder's output satisfies `len(tokens) == len(Text) == len(tags)` and the
concatenation of the (single-character) tokens is exactly the Text. -/
theorem c1_theorem (comps : List (Chars × Chars)) (addr : Chars)
    (hd : List.Pairwise SpDisj (entityPositionsOf comps addr)) :
    (convert_address_to_token comps addr).tokens = addr ∧
    (convert_address_to_token comps addr).tokens.length = addr.length ∧
    (convert_address_to_token comps addr).ner_tags.length = addr.length := by
  have hperm := sortEnts_perm (entityPositionsOf comps addr)
  have hd' : List.Pairwise SpDisj (sortEnts (entityPositionsOf comps addr)) :=
    (List.Perm.pairwise_iff (fun h => Or.symm h) hperm).mpr hd
  have hmem : ∀ e ∈ sortEnts (entityPositionsOf comps addr),
      e.start < e.stop ∧ e.stop ≤ addr.length ∧ e.text = pySlice addr e.start e.stop :=
    fun e he => ent_spec (hperm.mem_iff.mp he)
  have hps := sortEnts_pairwise_le (entityPositionsOf comps addr)
  have hchain : List.Pairwise (fun a b => a.stop ≤ b.start)
      (sortEnts (entityPositionsOf comps addr)) := by
    refine List.Pairwise.imp_of_mem ?_ (hps.and hd')
    intro a b ha hb hab
    obtain ⟨hle, hdj⟩ := hab
    obtain ⟨ha1, -, -⟩ := hmem a ha
    obtain ⟨hb1, -, -⟩ := hmem b hb
    unfold entLE at hle
    rcases hdj with h | h
    · exact h
    · omega
  have hup : UpChain addr 0 (sortEnts (entityPositionsOf comps addr)) :=
    upChain_of addr _ 0 hchain hmem (fun e _ => Nat.zero_le _)
  obtain ⟨h1, h2, h3⟩ := emitLoop_spec addr _ 0 hup (Nat.zero_le _)
  have htok : (convertPairs comps addr).map Prod.fst = addr := by
    simp only [convertPairs, List.map_append, h1]
    have hrem : ((if (emitLoop addr 0 (sortEnts (entityPositionsOf comps addr))).2 < addr.length
        then (addr.drop (emitLoop addr 0 (sortEnts (entityPositionsOf comps addr))).2).map
          (fun c => (c, oTag)) else []).map Prod.fst) =
        addr.drop (emitLoop addr 0 (sortEnts (entityPositionsOf comps addr))).2 := by
      split
      · exact map_fst_pairs _ _
      · rw [List.drop_eq_nil_of_le (by omega)]
        rfl
    rw [hrem]
    have hsl : pySlice addr 0 (emitLoop addr 0 (sortEnts (entityPositionsOf comps addr))).2 =
        addr.take (emitLoop addr 0 (sortEnts (entityPositionsOf comps addr))).2 := by
      rw [pySlice_eq]
      simp
    rw [hsl, List.take_append_drop]
  have hplen : (convertPairs comps addr).length = addr.length := by
    have := congrArg List.length htok
    rwa [List.length_map] at this
  refine ⟨htok, ?_, ?_⟩
  · show ((convertPairs comps addr).map Prod.fst).length = addr.length
    rw [htok]
  · show ((convertPairs comps addr).map Prod.snd).length = addr.length
    rw [List.length_map]
    exact hplen

/-- C1 counterexample: with the overlapping located spans `x = "ab"` at `[0,2)`
and `y = "bc"` at `[1,3)` in `Text = "abc"`, the Encoder emits both spans in
full, so there are 4 tokens for a 3-character text and the concatenation is
`"abbc" ≠ "abc"`. -/
theorem c1_counterexample :
    (convert_address_to_token [("x".toList, "ab".toList), ("y".toList, "bc".toList)]
        "abc".toList).tokens = "abbc".toList ∧
    ¬ ((convert_address_to_token [("x".toList, "ab".toList), ("y".toList, "bc".toList)]
        "abc".toList).tokens.length = "abc".toList.length) := by
  decide

theorem c1_witness :
    List.Pairwise SpDisj
      (entityPositionsOf [("x".toList, "ab".toList), ("y".toList, "cd".toList)] "abcd".toList) ∧
    ((convert_address_to_token [("x".toList, "ab".toList), ("y".toList, "cd".toList)]
        "abcd".toList).tokens = "abcd".toList ∧
      (convert_address_to_token [("x".toList, "ab".toList), ("y".toList, "cd".toList)]
        "abcd".toList).tokens.length = "abcd".toList.length ∧
      (convert_address_to_token [("x".toList, "ab".toList), ("y".toList, "cd".toList)]
        "abcd".toList).ner_tags.length = "abcd".toList.length) :=
  ⟨by decide, c1_theorem _ _ (by decide)⟩

theorem emitLoop_contains (addr : Chars) :
    ∀ (l : List Ent) (pos : Nat) (e : Ent), e ∈ l →
      ∃ l1 l2, (emitLoop addr pos l).1 = l1 ++ emitEntity e ++ l2
  | f :: rest, pos, e, he => by
    rcases List.mem_cons.mp he with rfl | hmem
    · refine ⟨if pos < e.start then (pySlice addr pos e.start).map (fun c => (c, oTag)) else [],
        (emitLoop addr e.stop rest).1, ?_⟩
      simp [emitLoop]
    · obtain ⟨a, b, hab⟩ := emitLoop_contains addr rest f.stop e hmem
      refine ⟨(if pos < f.start then (pySlice addr pos f.start).map (fun c => (c, oTag)) else []) ++
        emitEntity f ++ a, b, ?_⟩
      simp [emitLoop, hab]

/-- C5 (amended): every located span — even one that starts before, or lies
entirely inside, the region already consumed by earlier spans — is emitted in
full: its complete `(token, BIOES-tag)` block appears contiguously in the
Encoder's output.  Overlapping spans are never truncated to a tail nor
dropped. -/
theorem c5_theorem (comps : List (Chars × Chars)) (addr : Chars) (e : Ent)
    (he : e ∈ entityPositionsOf comps addr) :
    ∃ l1 l2, convertPairs comps addr = l1 ++ emitEntity e ++ l2 := by
  have hmem : e ∈ sortEnts (entityPositionsOf comps addr) := (sortEnts_perm _).mem_iff.mpr he
  obtain ⟨a, b, hab⟩ := emitLoop_contains addr _ 0 e hmem
  refine ⟨a, b ++ (if (emitLoop addr 0 (sortEnts (entityPositionsOf comps addr))).2 < addr.length
    then (addr.drop (emitLoop addr 0 (sortEnts (entityPositionsOf comps addr))).2).map
      (fun c => (c, oTag)) else []), ?_⟩
  simp only [convertPairs, hab]
  simp [List.append_assoc]

/-- C5 counterexample: `y = "b"` at `[1,2)` lies entirely inside the consumed
span `x = "abc"` at `[0,3)`, yet its tag `S-y` is still emitted (the claim says
it must be fully dropped); moreover `current_pos` moves backwards and the
remainder is re-emitted, giving 5 tokens for a 3-character text. -/
theorem c5_counterexample :
    entityPositionsOf [("x".toList, "abc".toList), ("y".toList, "b".toList)] "abc".toList =
      [⟨0, 3, "abc".toList, "x".toList⟩, ⟨1, 2, "b".toList, "y".toList⟩] ∧
    (convert_address_to_token [("x".toList, "abc".toList), ("y".toList, "b".toList)]
        "abc".toList).ner_tags =
      [bTag "x".toList, iTag "x".toList, eTag "x".toList, sTag "y".toList, oTag] := by
  decide

theorem c5_witness :
    (⟨1, 2, "b".toList, "y".toList⟩ : Ent) ∈
      entityPositionsOf [("x".toList, "abc".toList), ("y".toList, "b".toList)] "abc".toList ∧
    ∃ l1 l2, convertPairs [("x".toList, "abc".toList), ("y".toList, "b".toList)] "abc".toList =
      l1 ++ emitEntity ⟨1, 2, "b".toList, "y".toList⟩ ++ l2 :=
  ⟨by decide, c5_theorem _ _ _ (by decide)⟩

/-! ## Decoder lemmas -/

@[simp]
theorem startsTag_marker (k m : Char) (ty : Chars) :
    startsTag k (m :: '-' :: ty) = decide (m = k) := by
  simp [startsTag]

theorem afterFirstDash_marker {m : Char} (hm : ¬ m = '-') (ty : Chars) :
    afterFirstDash (m :: '-' :: ty) = ty := by
  simp [afterFirstDash, List.dropWhile, hm]

theorem flushCat_marker {m : Char} (hm : ¬ m = '-') (ty : Chars) :
    flushCat (m :: '-' :: ty) = ty := by
  rw [flushCat, if_pos (by simp : '-' ∈ m :: '-' :: ty)]
  exact afterFirstDash_marker hm ty

theorem decode_oRun :
    ∀ (chars : Chars) (ents : EntDict),
      List.foldl decodeStep ⟨ents, none, []⟩ (chars.map (fun c => (c, oTag))) = ⟨ents, none, []⟩
  | [], _ => rfl
  | c :: rest, ents => by
    have hstep : decodeStep ⟨ents, none, []⟩ (c, oTag) = ⟨ents, none, []⟩ := by
      simp [decodeStep, oTag, startsTag, flushState]
    rw [List.map_cons, List.foldl_cons, hstep]
    exact decode_oRun rest ents

theorem decode_tail :
    ∀ (l : Chars) (n L : Nat) (ty : Chars) (ents : EntDict) (bt : Tag) (acc : List Char),
      1 ≤ n → n + l.length = L → l ≠ [] →
      List.foldl decodeStep ⟨ents, some bt, acc⟩
        ((List.enumFrom n l).map (fun ic => (ic.2, tagOfPos ty L ic.1))) =
      ⟨addEnt ents (flushCat bt) (acc ++ l), none, []⟩
  | [], _, _, _, _, _, _, _, _, h => absurd rfl h
  | [c], n, L, ty, ents, bt, acc, hn, hL, _ => by
    have h1 : ¬ L = 1 := by simp at hL; omega
    have h2 : ¬ n = 0 := by omega
    have h3 : n = L - 1 := by simp at hL; omega
    rw [List.enumFrom_cons]
    simp only [List.enumFrom, List.map_cons, List.map_nil, List.foldl_cons, List.foldl_nil]
    rw [tagOfPos, if_neg h1, if_neg h2, if_pos h3]
    simp [decodeStep, eTag, flushState]
  | c :: d :: rest, n, L, ty, ents, bt, acc, hn, hL, _ => by
    have h1 : ¬ L = 1 := by simp at hL; omega
    have h2 : ¬ n = 0 := by omega
    have h3 : ¬ n = L - 1 := by simp at hL; omega
    rw [List.enumFrom_cons, List.map_cons, List.foldl_cons]
    rw [tagOfPos, if_neg h1, if_neg h2, if_neg h3]
    have hstep : decodeStep ⟨ents, some bt, acc⟩ (c, iTag ty) = ⟨ents, some bt, acc ++ [c]⟩ := by
      simp [decodeStep, iTag]
    rw [hstep]
    have := decode_tail (d :: rest) (n + 1) L ty ents bt (acc ++ [c]) (by omega)
      (by simp at hL ⊢; omega) (by simp)
    rw [this, List.append_assoc]
    rfl

theorem decode_block (e : Ent) (ents : EntDict) (hne : e.text ≠ []) :
    List.foldl decodeStep ⟨ents, none, []⟩ (emitEntity e) =
      ⟨addEnt ents e.ty e.text, none, []⟩ := by
  match htext : e.text with
  | [] => exact absurd htext hne
  | [c] =>
    simp only [emitEntity, htext]
    simp only [List.enum_cons, List.enumFrom, List.map_cons, List.map_nil, List.length_cons,
      List.length_nil, List.foldl_cons, List.foldl_nil, Nat.zero_add]
    rw [tagOfPos, if_pos rfl]
    simp [decodeStep, sTag, flushState, afterFirstDash_marker (show ¬ 'S' = '-' by decide) e.ty]
  | c :: d :: rest =>
    simp only [emitEntity, htext]
    rw [List.enum_cons, List.map_cons, List.foldl_cons]
    have hB : tagOfPos e.ty (c :: d :: rest).length 0 = bTag e.ty := by
      rw [tagOfPos, if_neg (by simp), if_pos rfl]
    rw [hB]
    have hstep : decodeStep ⟨ents, none, []⟩ (c, bTag e.ty) = ⟨ents, some (bTag e.ty), [c]⟩ := by
      simp [decodeStep, bTag, flushState]
    rw [hstep]
    have htl := decode_tail (d :: rest) 1 ((c :: d :: rest).length) e.ty ents (bTag e.ty) [c]
      (le_refl 1) (by simp; omega) (by simp)
    rw [htl]
    rw [show flushCat (bTag e.ty) = e.ty from flushCat_marker (show ¬ 'B' = '-' by decide) e.ty]
    rfl

/-- Folding the located entities into the decoder's dictionary, in emission
order. -/
def foldEnts (l : List Ent) (ents : EntDict) : EntDict :=
  l.foldl (fun es e => addEnt es e.ty e.text) ents

theorem decode_emitLoop (addr : Chars) :
    ∀ (l : List Ent) (pos : Nat) (ents : EntDict), (∀ e ∈ l, e.text ≠ []) →
      List.foldl decodeStep ⟨ents, none, []⟩ (emitLoop addr pos l).1 =
        ⟨foldEnts l ents, none, []⟩
  | [], _, _, _ => rfl
  | e :: rest, pos, ents, hne => by
    show List.foldl decodeStep ⟨ents, none, []⟩
      ((if pos < e.start then (pySlice addr pos e.start).map (fun c => (c, oTag)) else []) ++
        emitEntity e ++ (emitLoop addr e.stop rest).1) = _
    rw [List.foldl_append, List.foldl_append]
    have hgap : List.foldl decodeStep ⟨ents, none, []⟩
        (if pos < e.start then (pySlice addr pos e.start).map (fun c => (c, oTag)) else []) =
        ⟨ents, none, []⟩ := by
      split
      · exact decode_oRun _ ents
      · rfl
    rw [hgap, decode_block e ents (hne e (List.mem_cons_self e rest))]
    exact decode_emitLoop addr rest e.stop (addEnt ents e.ty e.text)
      (fun f hf => hne f (List.mem_cons_of_mem _ hf))

theorem zip_fst_snd : ∀ (ps : List (Char × Tag)), (ps.map Prod.fst).zip (ps.map Prod.snd) = ps
  | [] => rfl
  | p :: rest => by
    rw [List.map_cons, List.map_cons, List.zip_cons_cons, zip_fst_snd rest]

theorem extract_convert (comps : List (Chars × Chars)) (addr : Chars) :
    extract_entities_from_tokens (convert_address_to_token comps addr).tokens
        (convert_address_to_token comps addr).ner_tags =
      foldEnts (sortEnts (entityPositionsOf comps addr)) [] := by
  have htext : ∀ e ∈ sortEnts (entityPositionsOf comps addr), e.text ≠ [] :=
    fun e he => (mem_entityPositions ((sortEnts_perm _).mem_iff.mp he)).1
  have hzip : (convert_address_to_token comps addr).tokens.zip
      (convert_address_to_token comps addr).ner_tags = convertPairs comps addr :=
    zip_fst_snd _
  have hfin : List.foldl decodeStep ⟨[], none, []⟩ (convertPairs comps addr) =
      ⟨foldEnts (sortEnts (entityPositionsOf comps addr)) [], none, []⟩ := by
    show List.foldl decodeStep ⟨[], none, []⟩
      ((emitLoop addr 0 (sortEnts (entityPositionsOf comps addr))).1 ++ _) = _
    rw [List.foldl_append, decode_emitLoop addr _ 0 [] htext]
    split
    · exact decode_oRun _ _
    · rfl
  simp only [extract_entities_from_tokens]
  rw [hzip, hfin]
  rfl

theorem getVals_addEnt :
    ∀ (ents : EntDict) (k v c : Chars),
      getVals (addEnt ents k v) c = if k = c then getVals ents c ++ [v] else getVals ents c
  | [], k, v, c => by
    by_cases h : k = c <;> simp [addEnt, getVals, h]
  | (k', vs') :: rest, k, v, c => by
    by_cases h1 : k' = k
    · subst h1
      by_cases h2 : k' = c <;> simp [addEnt, getVals, h2]
    · by_cases h2 : k' = c
      · subst h2
        have h3 : ¬ k = k' := fun h => h1 h.symm
        simp [addEnt, getVals, h1, h3]
      · simp [addEnt, getVals, h1, h2, getVals_addEnt rest k v c]

theorem getVals_foldEnts :
    ∀ (l : List Ent) (ents : EntDict) (c : Chars),
      getVals (foldEnts l ents) c =
        getVals ents c ++ (l.filter (fun e => decide (e.ty = c))).map Ent.text
  | [], _, _ => by simp [foldEnts]
  | e :: rest, ents, c => by
    show getVals (foldEnts rest (addEnt ents e.ty e.text)) c = _
    rw [getVals_foldEnts rest (addEnt ents e.ty e.text) c, getVals_addEnt]
    by_cases h : e.ty = c
    · simp [List.filter_cons, h]
    · simp [List.filter_cons, h]

/-- The candidate `(category, entity-string)` pairs the Encoder tries to
locate, in iteration order. -/
def candPairsOf (comps : List (Chars × Chars)) : List (Chars × Chars) :=
  comps.flatMap (fun kv =>
    if kv.2 = [] then []
    else ((piecesOf kv.2).filter (fun ent => !(ent = []))).map (fun ent => (kv.1, ent)))

theorem filterMap_if (f : Chars → Option Ent) :
    ∀ (l : List Chars),
      l.filterMap (fun x => if x = [] then none else f x) =
        (l.filter (fun x => !(x = []))).filterMap f
  | [] => rfl
  | x :: rest => by
    by_cases h : x = []
    · simp [List.filterMap_cons, List.filter_cons, h, filterMap_if f rest]
    · cases hfx : f x <;>
        simp [List.filterMap_cons, List.filter_cons, h, hfx, filterMap_if f rest]

theorem entityPositions_eq_candPairs (comps : List (Chars × Chars)) (addr : Chars) :
    entityPositionsOf comps addr =
      (candPairsOf comps).filterMap (fun pr => locateEnt addr pr.1 pr.2) := by
  unfold entityPositionsOf candPairsOf
  rw [List.filterMap_flatMap]
  refine List.flatMap_congr (fun kv _ => ?_)
  by_cases h : kv.2 = []
  · simp [h]
  · rw [if_neg h, if_neg h, filterMap_if, List.filterMap_map]
    rfl

/-- The values the Encoder attempts for category `c`, in input order (comma
pieces stripped, empties dropped). -/
def valuesOf (comps : List (Chars × Chars)) (c : Chars) : List Chars :=
  ((candPairsOf comps).filter (fun pr => decide (pr.1 = c))).map Prod.snd

theorem filterMap_locate_vals (addr : Chars) :
    ∀ (l : List (Chars × Chars)),
      (∀ pr ∈ l, locateEnt addr pr.1 pr.2 ≠ none) → ∀ (c : Chars),
      ((l.filterMap (fun pr => locateEnt addr pr.1 pr.2)).filter
          (fun e => decide (e.ty = c))).map Ent.text =
        (l.filter (fun pr => decide (pr.1 = c))).map Prod.snd
  | [], _, _ => rfl
  | pr :: rest, hall, c => by
    have hrest := filterMap_locate_vals addr rest
      (fun q hq => hall q (List.mem_cons_of_mem _ hq)) c
    match hloc : locateEnt addr pr.1 pr.2 with
    | none => exact absurd hloc (hall pr (List.mem_cons_self pr rest))
    | some e =>
      have hty : e.ty = pr.1 := by
        unfold locateEnt at hloc
        split at hloc
        · cases hloc
          rfl
        · cases hloc
      have htx : e.text = pr.2 := by
        unfold locateEnt at hloc
        split at hloc
        · cases hloc
          rfl
        · cases hloc
      rw [List.filterMap_cons, hloc]
      by_cases h : pr.1 = c
      · have hpe : decide (e.ty = c) = true := decide_eq_true (hty.trans h)
        have hpp : decide (pr.1 = c) = true := decide_eq_true h
        simp only [List.filter_cons, hpe, hpp, if_true, List.map_cons, htx, hrest]
      · have hpe : decide (e.ty = c) = false := decide_eq_false (fun hh => h (hty.symm.trans hh))
        have hpp : decide (pr.1 = c) = false := decide_eq_false h
        simp only [List.filter_cons, hpe, hpp, Bool.false_eq_true, if_false]
        exact hrest

/-- C2 (amended): for Text and CategoryMap with pairwise non-overlapping
located spans whose candidate values are all found in Text (in particular when
each value is a unique substring of Text), decoding the Encoder's output
recovers exactly the located values of each category with multiplicity
preserved; within a category the values come back ordered by their start
offset in Text (the sorted emission order), which need not be the input comma
order. -/
theorem c2_theorem (comps : List (Chars × Chars)) (addr : Chars) (c : Chars)
    (h1 : List.Pairwise SpDisj (entityPositionsOf comps addr))
    (h2 : ∀ pr ∈ candPairsOf comps, locateEnt addr pr.1 pr.2 ≠ none) :
    getVals (extract_entities_from_tokens (convert_address_to_token comps addr).tokens
        (convert_address_to_token comps addr).ner_tags) c =
      ((sortEnts (entityPositionsOf comps addr)).filter
        (fun e => decide (e.ty = c))).map Ent.text ∧
    (getVals (extract_entities_from_tokens (convert_address_to_token comps addr).tokens
        (convert_address_to_token comps addr).ner_tags) c).Perm (valuesOf comps c) := by
  have hmain : getVals (extract_entities_from_tokens
      (convert_address_to_token comps addr).tokens
      (convert_address_to_token comps addr).ner_tags) c =
      ((sortEnts (entityPositionsOf comps addr)).filter
        (fun e => decide (e.ty = c))).map Ent.text := by
    rw [extract_convert, getVals_foldEnts]
    rfl
  refine ⟨hmain, ?_⟩
  rw [hmain]
  have hperm := (sortEnts_perm (entityPositionsOf comps addr)).filter
    (fun e => decide (e.ty = c))
  refine (hperm.map Ent.text).trans ?_
  rw [entityPositions_eq_candPairs, filterMap_locate_vals addr _ h2 c]
  unfold valuesOf
  exact List.Perm.refl _

/-- C2 counterexample: `Text = "abcd"`, `CategoryMap = {x: "cd,ab"}`.  The
located spans `(2,4)` and `(0,2)` do not overlap and both values are unique
substrings, yet the decoded value list for `x` is `["ab", "cd"]` — span order,
not the input order `["cd", "ab"]` — so value order is not preserved. -/
theorem c2_counterexample :
    piecesOf "cd,ab".toList = ["cd".toList, "ab".toList] ∧
    List.Pairwise SpDisj (entityPositionsOf [("x".toList, "cd,ab".toList)] "abcd".toList) ∧
    getVals (extract_entities_from_tokens
      (convert_address_to_token [("x".toList, "cd,ab".toList)] "abcd".toList).tokens
      (convert_address_to_token [("x".toList, "cd,ab".toList)] "abcd".toList).ner_tags)
      "x".toList = ["ab".toList, "cd".toList] ∧
    ¬ (["ab".toList, "cd".toList] = ["cd".toList, "ab".toList]) := by
  decide

theorem c2_witness :
    List.Pairwise SpDisj
      (entityPositionsOf [("x".toList, "ab".toList), ("y".toList, "d".toList)] "abcd".toList) ∧
    (∀ pr ∈ candPairsOf [("x".toList, "ab".toList), ("y".toList, "d".toList)],
      locateEnt "abcd".toList pr.1 pr.2 ≠ none) ∧
    (getVals (extract_entities_from_tokens
        (convert_address_to_token [("x".toList, "ab".toList), ("y".toList, "d".toList)]
          "abcd".toList).tokens
        (convert_address_to_token [("x".toList, "ab".toList), ("y".toList, "d".toList)]
          "abcd".toList).ner_tags) "x".toList =
      ((sortEnts (entityPositionsOf [("x".toList, "ab".toList), ("y".toList, "d".toList)]
          "abcd".toList)).filter (fun e => decide (e.ty = "x".toList))).map Ent.text ∧
    (getVals (extract_entities_from_tokens
        (convert_address_to_token [("x".toList, "ab".toList), ("y".toList, "d".toList)]
          "abcd".toList).tokens
        (convert_address_to_token [("x".toList, "ab".toList), ("y".toList, "d".toList)]
          "abcd".toList).ner_tags) "x".toList).Perm
      (valuesOf [("x".toList, "ab".toList), ("y".toList, "d".toList)] "x".toList)) :=
  ⟨by decide, by decide, c2_theorem _ _ _ (by decide) (by decide)⟩

theorem startsTag_excl :
    ∀ {t : Tag} {k k' : Char}, startsTag k t = true → ¬ k' = k → startsTag k' t = false
  | c :: d :: r, k, k', hk, hne => by
    simp only [startsTag, Bool.and_eq_true, decide_eq_true_eq] at hk
    have hc : ¬ c = k' := fun h => hne (hk.1.symm.trans h).symm
    simp [startsTag, hc]
  | [], _, _, hk, _ => by simp [startsTag] at hk
  | [c], _, _, hk, _ => by simp [startsTag] at hk

/-- C6 (amended): while an accumulator is open for the category of `ct`
(opened by a `B-` tag), an `I-` tag of ANY category — matching or not —
appends the character and keeps the accumulator open, and an `E-` tag of ANY
category appends the character and flushes under the OPEN tag's category (the
decoder only inspects the marker, never the category, of `I-`/`E-` tags); a
`B-`, `S-`, `O` or other tag behaves as the claim says: the accumulator is
flushed as-is under its original category and the new tag is then processed
exactly as from the idle state. -/
theorem c6_theorem (ents : EntDict) (ct : Tag) (toks : List Char) (tok : Char) (tag : Tag) :
    (startsTag 'I' tag = true →
      decodeStep ⟨ents, some ct, toks⟩ (tok, tag) = ⟨ents, some ct, toks ++ [tok]⟩) ∧
    (startsTag 'E' tag = true →
      decodeStep ⟨ents, some ct, toks⟩ (tok, tag) =
        ⟨addEnt ents (flushCat ct) (toks ++ [tok]), none, []⟩) ∧
    (startsTag 'I' tag = false → startsTag 'E' tag = false →
      decodeStep ⟨ents, some ct, toks⟩ (tok, tag) =
        decodeStep ⟨flushState ents (some ct) toks, none, []⟩ (tok, tag)) := by
  refine ⟨?_, ?_, ?_⟩
  · intro hI
    have hB : startsTag 'B' tag = false := startsTag_excl hI (by decide)
    have hS : startsTag 'S' tag = false := startsTag_excl hI (by decide)
    simp [decodeStep, hB, hS, hI]
  · intro hE
    have hB : startsTag 'B' tag = false := startsTag_excl hE (by decide)
    have hS : startsTag 'S' tag = false := startsTag_excl hE (by decide)
    have hI : startsTag 'I' tag = false := startsTag_excl hE (by decide)
    simp [decodeStep, hB, hS, hI, hE]
  · intro hI hE
    by_cases hB : startsTag 'B' tag = true
    · have hS : startsTag 'S' tag = false := startsTag_excl hB (by decide)
      simp [decodeStep, hB, hS, flushState]
    · by_cases hS : startsTag 'S' tag = true
      · simp [decodeStep, hB, hS, flushState]
      · simp [decodeStep, hB, hS, hI, hE, flushState]

/-- C6 counterexample: tokens `['a','b']`, tags `[B-x, I-y]`.  The `I-y` tag
has a mismatched category, yet the decoder appends `'b'` to the open `x`
accumulator (the final flush then yields `x ↦ ["ab"]`); the claim's predicted
behaviour — flush `"a"` under `x`, ignore `I-y` — would give `x ↦ ["a"]`. -/
theorem c6_counterexample :
    extract_entities_from_tokens ['a', 'b'] [bTag "x".toList, iTag "y".toList] =
      [("x".toList, ["ab".toList])] ∧
    ¬ extract_entities_from_tokens ['a', 'b'] [bTag "x".toList, iTag "y".toList] =
      [("x".toList, [['a']])] := by
  decide

theorem c6_witness :
    decodeStep ⟨[], some (bTag "x".toList), ['a']⟩ ('b', iTag "y".toList) =
      ⟨[], some (bTag "x".toList), ['a', 'b']⟩ :=
  (c6_theorem [] (bTag "x".toList) ['a'] 'b' (iTag "y".toList)).1 (by decide)

/-! ## Claim C4: the classifier's exception boundary -/

/-- C4: `classify_elements_to_11_levels` never raises: the function is total,
and any internal failure caught by the handler is converted into a record with
`level1`–`level11` and `remark` all empty, `original_text` preserved
unchanged, and `error` carrying the failure description; when the body
succeeds its record is returned unchanged. -/
theorem c4_theorem :
    (∀ (e : Chars) (t : Chars), classifyCatch (Except.error e) t =
      { level1 := [], level2 := [], level3 := [], level4 := [], level5 := [],
        level6 := [], level7 := [], level8 := [], level9 := [], level10 := [],
        level11 := [], remark := [], original_text := t, error := some e }) ∧
    (∀ (v : LevelRec) (t : Chars), classifyCatch (Except.ok v) t = v) ∧
    (∀ (entities : List (Chars × Chars)) (addr : Chars),
      classify_elements_to_11_levels entities addr = classifyBody entities addr) :=
  ⟨fun _ _ => rfl, fun _ _ => rfl, fun _ _ => rfl⟩

/-! ## Selection folds: min/max by start, max by end -/

theorem foldMinStart_spec :
    ∀ (l : List Sp) (a m : Sp),
      l.foldl (fun acc s =>
        match acc with
        | none => some s
        | some m0 => if s.1 < m0.1 then some s else acc) (some a) = some m →
      (m = a ∨ m ∈ l) ∧ m.1 ≤ a.1 ∧ ∀ s ∈ l, m.1 ≤ s.1
  | [], a, m, h => by
    cases h
    exact ⟨Or.inl rfl, le_refl _, by simp⟩
  | s :: rest, a, m, h => by
    rw [List.foldl_cons] at h
    by_cases hc : s.1 < a.1
    · rw [show (match some a with
          | none => some s
          | some m0 => if s.1 < m0.1 then some s else some a) = some s by simp [hc]] at h
      obtain ⟨h1, h2, h3⟩ := foldMinStart_spec rest s m h
      refine ⟨?_, by omega, ?_⟩
      · rcases h1 with rfl | h1
        · exact Or.inr (List.mem_cons_self _ _)
        · exact Or.inr (List.mem_cons_of_mem _ h1)
      · intro t ht
        rcases List.mem_cons.mp ht with rfl | ht
        · exact h2
        · exact h3 t ht
    · rw [show (match some a with
          | none => some s
          | some m0 => if s.1 < m0.1 then some s else some a) = some a by simp [hc]] at h
      obtain ⟨h1, h2, h3⟩ := foldMinStart_spec rest a m h
      refine ⟨?_, h2, ?_⟩
      · rcases h1 with rfl | h1
        · exact Or.inl rfl
        · exact Or.inr (List.mem_cons_of_mem _ h1)
      · intro t ht
        rcases List.mem_cons.mp ht with rfl | ht
        · omega
        · exact h3 t ht

theorem minByStart_spec {l : List Sp} {m : Sp} (h : minByStart l = some m) :
    m ∈ l ∧ ∀ s ∈ l, m.1 ≤ s.1 := by
  match l, h with
  | [], h => simp [minByStart] at h
  | s :: rest, h =>
    rw [minByStart, List.foldl_cons] at h
    obtain ⟨h1, h2, h3⟩ := foldMinStart_spec rest s m h
    refine ⟨?_, ?_⟩
    · rcases h1 with rfl | h1
      · exact List.mem_cons_self _ _
      · exact List.mem_cons_of_mem _ h1
    · intro t ht
      rcases List.mem_cons.mp ht with rfl | ht
      · exact h2
      · exact h3 t ht

theorem foldMaxStart_spec :
    ∀ (l : List Sp) (a m : Sp),
      l.foldl (fun acc s =>
        match acc with
        | none => some s
        | some m0 => if s.1 > m0.1 then some s else acc) (some a) = some m →
      (m = a ∨ m ∈ l) ∧ a.1 ≤ m.1 ∧ ∀ s ∈ l, s.1 ≤ m.1
  | [], a, m, h => by
    cases h
    exact ⟨Or.inl rfl, le_refl _, by simp⟩
  | s :: rest, a, m, h => by
    rw [List.foldl_cons] at h
    by_cases hc : s.1 > a.1
    · rw [show (match some a with
          | none => some s
          | some m0 => if s.1 > m0.1 then some s else some a) = some s by simp [hc]] at h
      obtain ⟨h1, h2, h3⟩ := foldMaxStart_spec rest s m h
      refine ⟨?_, by omega, ?_⟩
      · rcases h1 with rfl | h1
        · exact Or.inr (List.mem_cons_self _ _)
        · exact Or.inr (List.mem_cons_of_mem _ h1)
      · intro t ht
        rcases List.mem_cons.mp ht with rfl | ht
        · exact h2
        · exact h3 t ht
    · rw [show (match some a with
          | none => some s
          | some m0 => if s.1 > m0.1 then some s else some a) = some a by simp [hc]] at h
      obtain ⟨h1, h2, h3⟩ := foldMaxStart_spec rest a m h
      refine ⟨?_, h2, ?_⟩
      · rcases h1 with rfl | h1
        · exact Or.inl rfl
        · exact Or.inr (List.mem_cons_of_mem _ h1)
      · intro t ht
        rcases List.mem_cons.mp ht with rfl | ht
        · omega
        · exact h3 t ht

theorem maxByStart_spec {l : List Sp} {m : Sp} (h : maxByStart l = some m) :
    m ∈ l ∧ ∀ s ∈ l, s.1 ≤ m.1 := by
  match l, h with
  | [], h => simp [maxByStart] at h
  | s :: rest, h =>
    rw [maxByStart, List.foldl_cons] at h
    obtain ⟨h1, h2, h3⟩ := foldMaxStart_spec rest s m h
    refine ⟨?_, ?_⟩
    · rcases h1 with rfl | h1
      · exact List.mem_cons_self _ _
      · exact List.mem_cons_of_mem _ h1
    · intro t ht
      rcases List.mem_cons.mp ht with rfl | ht
      · exact h2
      · exact h3 t ht

theorem foldMaxEnd_spec :
    ∀ (l : List Sp) (a m : Sp),
      l.foldl (fun acc s =>
        match acc with
        | none => some s
        | some m0 => if s.2 > m0.2 then some s else acc) (some a) = some m →
      (m = a ∨ m ∈ l) ∧ a.2 ≤ m.2 ∧ ∀ s ∈ l, s.2 ≤ m.2
  | [], a, m, h => by
    cases h
    exact ⟨Or.inl rfl, le_refl _, by simp⟩
  | s :: rest, a, m, h => by
    rw [List.foldl_cons] at h
    by_cases hc : s.2 > a.2
    · rw [show (match some a with
          | none => some s
          | some m0 => if s.2 > m0.2 then some s else some a) = some s by simp [hc]] at h
      obtain ⟨h1, h2, h3⟩ := foldMaxEnd_spec rest s m h
      refine ⟨?_, by omega, ?_⟩
      · rcases h1 with rfl | h1
        · exact Or.inr (List.mem_cons_self _ _)
        · exact Or.inr (List.mem_cons_of_mem _ h1)
      · intro t ht
        rcases List.mem_cons.mp ht with rfl | ht
        · exact h2
        · exact h3 t ht
    · rw [show (match some a with
          | none => some s
          | some m0 => if s.2 > m0.2 then some s else some a) = some a by simp [hc]] at h
      obtain ⟨h1, h2, h3⟩ := foldMaxEnd_spec rest a m h
      refine ⟨?_, h2, ?_⟩
      · rcases h1 with rfl | h1
        · exact Or.inl rfl
        · exact Or.inr (List.mem_cons_of_mem _ h1)
      · intro t ht
        rcases List.mem_cons.mp ht with rfl | ht
        · omega
        · exact h3 t ht

theorem maxByEnd_spec {l : List Sp} {m : Sp} (h : maxByEnd l = some m) :
    m ∈ l ∧ ∀ s ∈ l, s.2 ≤ m.2 := by
  match l, h with
  | [], h => simp [maxByEnd] at h
  | s :: rest, h =>
    rw [maxByEnd, List.foldl_cons] at h
    obtain ⟨h1, h2, h3⟩ := foldMaxEnd_spec rest s m h
    refine ⟨?_, ?_⟩
    · rcases h1 with rfl | h1
      · exact List.mem_cons_self _ _
      · exact List.mem_cons_of_mem _ h1
    · intro t ht
      rcases List.mem_cons.mp ht with rfl | ht
      · exact h2
      · exact h3 t ht

theorem foldMinStart_ne_none :
    ∀ (l : List Sp) (a : Sp),
      l.foldl (fun acc s =>
        match acc with
        | none => some s
        | some m0 => if s.1 < m0.1 then some s else acc) (some a) ≠ none
  | [], _ => by simp
  | s :: rest, a => by
    rw [List.foldl_cons]
    by_cases hc : s.1 < a.1
    · rw [show (match some a with
          | none => some s
          | some m0 => if s.1 < m0.1 then some s else some a) = some s by simp [hc]]
      exact foldMinStart_ne_none rest s
    · rw [show (match some a with
          | none => some s
          | some m0 => if s.1 < m0.1 then some s else some a) = some a by simp [hc]]
      exact foldMinStart_ne_none rest a

theorem minByStart_eq_none {l : List Sp} : minByStart l = none ↔ l = [] := by
  match l with
  | [] => simp [minByStart]
  | s :: rest =>
    simp only [minByStart, List.foldl_cons]
    constructor
    · intro h
      exact absurd h (foldMinStart_ne_none rest s)
    · intro h
      cases h

theorem foldMaxStart_ne_none :
    ∀ (l : List Sp) (a : Sp),
      l.foldl (fun acc s =>
        match acc with
        | none => some s
        | some m0 => if s.1 > m0.1 then some s else acc) (some a) ≠ none
  | [], _ => by simp
  | s :: rest, a => by
    rw [List.foldl_cons]
    by_cases hc : s.1 > a.1
    · rw [show (match some a with
          | none => some s
          | some m0 => if s.1 > m0.1 then some s else some a) = some s by simp [hc]]
      exact foldMaxStart_ne_none rest s
    · rw [show (match some a with
          | none => some s
          | some m0 => if s.1 > m0.1 then some s else some a) = some a by simp [hc]]
      exact foldMaxStart_ne_none rest a

theorem maxByStart_eq_none {l : List Sp} : maxByStart l = none ↔ l = [] := by
  match l with
  | [] => simp [maxByStart]
  | s :: rest =>
    simp only [maxByStart, List.foldl_cons]
    constructor
    · intro h
      exact absurd h (foldMaxStart_ne_none rest s)
    · intro h
      cases h

/-- C9: the POI anchor is the located span with the smallest start offset among
the spans of categories {poi, subpoi, community, devzone, village_group}
(absent exactly when none is located), and the administrative anchor is the
located span with the largest start offset among the spans of categories
{prov, city, district, town} (absent exactly when none is located). -/
theorem c9_theorem (entities : List (Chars × Chars)) (addr : Chars) :
    (poiMinIndexOf (indicesOf entities addr) = none ↔
      spansFor (indicesOf entities addr) poiCats = []) ∧
    (∀ s, poiMinIndexOf (indicesOf entities addr) = some s →
      s ∈ spansFor (indicesOf entities addr) poiCats ∧
      ∀ t ∈ spansFor (indicesOf entities addr) poiCats, s.1 ≤ t.1) ∧
    (adminMaxIndexOf (indicesOf entities addr) = none ↔
      spansFor (indicesOf entities addr) adminCats = []) ∧
    (∀ s, adminMaxIndexOf (indicesOf entities addr) = some s →
      s ∈ spansFor (indicesOf entities addr) adminCats ∧
      ∀ t ∈ spansFor (indicesOf entities addr) adminCats, t.1 ≤ s.1) := by
  refine ⟨minByStart_eq_none, fun s hs => minByStart_spec hs,
    maxByStart_eq_none, fun s hs => maxByStart_spec hs⟩

theorem c9_witness :
    poiMinIndexOf (indicesOf [("poi".toList, "AB".toList), ("city".toList, "C".toList)]
      "ABC".toList) = some (0, 2) ∧
    ((0, 2) ∈ spansFor (indicesOf [("poi".toList, "AB".toList), ("city".toList, "C".toList)]
        "ABC".toList) poiCats ∧
      ∀ t ∈ spansFor (indicesOf [("poi".toList, "AB".toList), ("city".toList, "C".toList)]
        "ABC".toList) poiCats, (0, 2).1 ≤ t.1) ∧
    adminMaxIndexOf (indicesOf [("poi".toList, "AB".toList), ("city".toList, "C".toList)]
      "ABC".toList) = some (2, 3) ∧
    ((2, 3) ∈ spansFor (indicesOf [("poi".toList, "AB".toList), ("city".toList, "C".toList)]
        "ABC".toList) adminCats ∧
      ∀ t ∈ spansFor (indicesOf [("poi".toList, "AB".toList), ("city".toList, "C".toList)]
        "ABC".toList) adminCats, t.1 ≤ (2, 3).1) :=
  ⟨by decide,
   (c9_theorem [("poi".toList, "AB".toList), ("city".toList, "C".toList)] "ABC".toList).2.1
     (0, 2) (by decide),
   by decide,
   (c9_theorem [("poi".toList, "AB".toList), ("city".toList, "C".toList)] "ABC".toList).2.2.2
     (2, 3) (by decide)⟩

/-- C7 (amended): at the steps that recompute `latest_keys` (levels 10–11 in
the POI branch; levels 8–11 in the no-POI/admin branch), the window's lower
bound is the maximum end offset over all boundaries collected so far: a span
passing the step's `afterEnd` test starts at or after the end of EVERY such
boundary.  (Levels 8 and 9 of the POI branch, by contrast, bound only at the
POI anchor / additional-slice end and ignore the admin anchor — see the
counterexample.) -/
theorem c7_theorem (idx : Indices) (keys : List Chars) (bs : List (Option Sp)) (m s b : Sp)
    (hm : latestMax bs = some m)
    (hs : s ∈ eligOf idx keys (fun t => afterEnd m t))
    (hb : b ∈ bs.filterMap id) :
    b.2 ≤ s.1 := by
  have hmax := maxByEnd_spec (l := bs.filterMap id) hm
  have hbm : b.2 ≤ m.2 := hmax.2 b hb
  have hcond : afterEnd m s = true := (List.mem_filter.mp hs).2
  have : ((m.2 : ℤ) - 1 < (s.1 : ℤ)) := of_decide_eq_true hcond
  omega

theorem c7_witness :
    latestMax [some (1, 3), none, some (0, 5)] = some (0, 5) ∧
    (5, 6) ∈ eligOf [("floorno".toList, [(5, 6)])] floornoCats (fun t => afterEnd (0, 5) t) ∧
    (1, 3) ∈ ([some (1, 3), none, some (0, 5)] : List (Option Sp)).filterMap id ∧
    (1, 3).2 ≤ (5, 6).1 :=
  ⟨by decide, by decide, by decide,
   c7_theorem [("floorno".toList, [(5, 6)])] floornoCats [some (1, 3), none, some (0, 5)]
     (0, 5) (5, 6) (1, 3) (by decide) (by decide) (by decide)⟩

/-- C7 counterexample: `Text = "ABCDEFG"`, `{poi: "AB", cellno: "C",
city: "DEFG"}`.  The admin anchor is `(3,7)` (an earlier assignment reaching
offset 7), yet level 9 is assigned the cellno span `(2,3)` — its text `"C"`
begins at offset 2, before the rightmost point already reached — because the
level-9 window in the POI branch lower-bounds only at the POI anchor's end,
not at the maximum end of all earlier assignments. -/
theorem c7_counterexample :
    (classify_elements_to_11_levels
      [("poi".toList, "AB".toList), ("cellno".toList, "C".toList),
        ("city".toList, "DEFG".toList)] "ABCDEFG".toList).level9 = "C".toList ∧
    (classify_elements_to_11_levels
      [("poi".toList, "AB".toList), ("cellno".toList, "C".toList),
        ("city".toList, "DEFG".toList)] "ABCDEFG".toList).level2 = "DEFG".toList ∧
    adminMaxIndexOf (indicesOf
      [("poi".toList, "AB".toList), ("cellno".toList, "C".toList),
        ("city".toList, "DEFG".toList)] "ABCDEFG".toList) = some (3, 7) ∧
    lookupIdx (indicesOf
      [("poi".toList, "AB".toList), ("cellno".toList, "C".toList),
        ("city".toList, "DEFG".toList)] "ABCDEFG".toList) "cellno".toList = some [(2, 3)] ∧
    (2 : Nat) < 7 := by
  decide

/-- C10: whenever a POI anchor `p` exists, the level-5 eligible road/direction
spans all start strictly before `p`'s start (and, with an admin anchor `a`,
additionally past `a`'s last character); consequently a road/direction span
starting at or after `p.start` never contributes to level 5, while any
road/direction span starting at or after `p`'s end does pass level 8's
eligibility test over the merged additional-POI categories. -/
theorem c10_theorem (entities : List (Chars × Chars)) (addr : Chars) (p : Sp)
    (hp : poiMinIndexOf (indicesOf entities addr) = some p) :
    (∀ a, adminMaxIndexOf (indicesOf entities addr) = some a →
      ∀ s ∈ eligOf (indicesOf entities addr) rdCats
        (fun s => afterEnd a s && beforeStart p s),
        s.1 < p.1 ∧ ((a.2 : ℤ) - 1 < (s.1 : ℤ))) ∧
    (∀ s ∈ eligOf (indicesOf entities addr) rdCats (fun s => beforeStart p s), s.1 < p.1) ∧
    (∀ s ∈ spansFor (indicesOf entities addr) rdCats, p.2 ≤ s.1 →
      s ∈ eligOf (indicesOf entities addr) additionalCats (fun s => afterEnd p s)) := by
  refine ⟨?_, ?_, ?_⟩
  · intro a _ s hs
    have hcond := (List.mem_filter.mp hs).2
    rw [Bool.and_eq_true] at hcond
    have h1 : ((a.2 : ℤ) - 1 < (s.1 : ℤ)) := of_decide_eq_true hcond.1
    have h2 : s.1 < p.1 := of_decide_eq_true hcond.2
    exact ⟨h2, h1⟩
  · intro s hs
    exact of_decide_eq_true (List.mem_filter.mp hs).2
  · intro s hs hps
    rw [eligOf, List.mem_filter]
    constructor
    · rw [spansFor, List.mem_flatMap] at hs ⊢
      obtain ⟨k, hk, hsk⟩ := hs
      refine ⟨k, ?_, hsk⟩
      rcases List.mem_cons.mp hk with rfl | hk
      · simp [additionalCats, rdCats]
      · rcases List.mem_cons.mp hk with rfl | hk
        · simp [additionalCats, rdCats]
        · simp at hk
    · exact decide_eq_true (by omega : ((p.2 : ℤ) - 1 < (s.1 : ℤ)))

theorem c10_witness :
    poiMinIndexOf (indicesOf
      [("city".toList, "A".toList), ("road".toList, "BC,FG".toList),
        ("poi".toList, "DE".toList)] "ABCDEFG".toList) = some (3, 5) ∧
    adminMaxIndexOf (indicesOf
      [("city".toList, "A".toList), ("road".toList, "BC,FG".toList),
        ("poi".toList, "DE".toList)] "ABCDEFG".toList) = some (0, 1) ∧
    ((1, 3).1 < (3, 5).1 ∧ (((0, 1).2 : ℤ) - 1 < ((1, 3).1 : ℤ))) ∧
    (5, 7) ∈ eligOf (indicesOf
      [("city".toList, "A".toList), ("road".toList, "BC,FG".toList),
        ("poi".toList, "DE".toList)] "ABCDEFG".toList) additionalCats
      (fun s => afterEnd (3, 5) s) := by
  refine ⟨by decide, by decide, ?_, ?_⟩
  · exact (c10_theorem [("city".toList, "A".toList), ("road".toList, "BC,FG".toList),
      ("poi".toList, "DE".toList)] "ABCDEFG".toList (3, 5) (by decide)).1 (0, 1) (by decide)
      (1, 3) (by decide)
  · exact (c10_theorem [("city".toList, "A".toList), ("road".toList, "BC,FG".toList),
      ("poi".toList, "DE".toList)] "ABCDEFG".toList (3, 5) (by decide)).2.2 (5, 7) (by decide)
      (by decide)

/-- C8: when the CategoryMap has no key `prov`, the output's `level1` is the
default `"广东省"`, and `level2`–`level4` are filled directly from the raw
`city`/`district`/`town` values (defaulting to the empty string), independent
of the admin anchor. -/
theorem c8_theorem (entities : List (Chars × Chars)) (addr : Chars)
    (h : assocLookup entities "prov".toList = none) :
    (classify_elements_to_11_levels entities addr).level1 = "广东省".toList ∧
    (classify_elements_to_11_levels entities addr).level2 =
      (assocLookup entities "city".toList).getD [] ∧
    (classify_elements_to_11_levels entities addr).level3 =
      (assocLookup entities "district".toList).getD [] ∧
    (classify_elements_to_11_levels entities addr).level4 =
      (assocLookup entities "town".toList).getD [] := by
  refine ⟨?_, rfl, rfl, rfl⟩
  show (assocLookup entities "prov".toList).getD "广东省".toList = "广东省".toList
  rw [h]
  rfl

theorem c8_witness :
    assocLookup [("city".toList, "杭州市".toList), ("district".toList, "江干区".toList),
      ("town".toList, "九堡镇".toList)] "prov".toList = none ∧
    ((classify_elements_to_11_levels
        [("city".toList, "杭州市".toList), ("district".toList, "江干区".toList),
          ("town".toList, "九堡镇".toList)]
        "浙江杭州市江干区九堡镇三村村一区1190房".toList).level1 = "广东省".toList ∧
      (classify_elements_to_11_levels
        [("city".toList, "杭州市".toList), ("district".toList, "江干区".toList),
          ("town".toList, "九堡镇".toList)]
        "浙江杭州市江干区九堡镇三村村一区1190房".toList).level2 =
        (assocLookup [("city".toList, "杭州市".toList), ("district".toList, "江干区".toList),
          ("town".toList, "九堡镇".toList)] "city".toList).getD [] ∧
      (classify_elements_to_11_levels
        [("city".toList, "杭州市".toList), ("district".toList, "江干区".toList),
          ("town".toList, "九堡镇".toList)]
        "浙江杭州市江干区九堡镇三村村一区1190房".toList).level3 =
        (assocLookup [("city".toList, "杭州市".toList), ("district".toList, "江干区".toList),
          ("town".toList, "九堡镇".toList)] "district".toList).getD [] ∧
      (classify_elements_to_11_levels
        [("city".toList, "杭州市".toList), ("district".toList, "江干区".toList),
          ("town".toList, "九堡镇".toList)]
        "浙江杭州市江干区九堡镇三村村一区1190房".toList).level4 =
        (assocLookup [("city".toList, "杭州市".toList), ("district".toList, "江干区".toList),
          ("town".toList, "九堡镇".toList)] "town".toList).getD []) ∧
    (classify_elements_to_11_levels
      [("city".toList, "杭州市".toList), ("district".toList, "江干区".toList),
        ("town".toList, "九堡镇".toList)]
      "浙江杭州市江干区九堡镇三村村一区1190房".toList).level2 = "杭州市".toList :=
  ⟨by decide,
   c8_theorem [("city".toList, "杭州市".toList), ("district".toList, "江干区".toList),
     ("town".toList, "九堡镇".toList)] "浙江杭州市江干区九堡镇三村村一区1190房".toList (by decide),
   by decide⟩

/-! ## Claim C3: the classifier's located spans partition behaviour -/

/-- All spans recorded in `indices`, in entry order. -/
def allSpansOf (idx : Indices) : List Sp := idx.flatMap Prod.snd

theorem findValueAux_some :
    ∀ (fuel start : Nat) {addr pat : Chars} {used : Finset ℕ} {pe : Sp},
      findValueAux addr pat used start fuel = some pe →
      pe.2 = pe.1 + pat.length ∧ pe.2 ≤ addr.length ∧ (used ∩ Finset.Ico pe.1 pe.2) = ∅
  | 0, start, _, _, _, _, h => by simp [findValueAux] at h
  | fuel + 1, start, addr, pat, used, pe, h => by
    simp only [findValueAux] at h
    split at h
    · cases h
    · rename_i pos hfind
      split at h
      · exact findValueAux_some fuel (pos + pat.length) h
      · rename_i hc
        cases h
        obtain ⟨-, hle, -⟩ := findFrom_some hfind
        refine ⟨rfl, hle, ?_⟩
        refine Finset.not_nonempty_iff_eq_empty.mp (fun hne => ?_)
        exact hc (decide_eq_true hne)

theorem findFrom_none_of_lt {addr pat : Chars} {start : Nat}
    (h : addr.length + 1 ≤ start) : findFrom addr pat start = none := by
  rw [findFrom]
  have : (List.range (addr.length + 1)).filter
      (fun i => decide (start ≤ i) && matchAt addr pat i) = [] := by
    rw [List.filter_eq_nil_iff]
    intro i hi
    rw [List.mem_range] at hi
    simp only [Bool.and_eq_true, decide_eq_true_eq, not_and]
    intro hsi
    omega
  rw [this]
  rfl

/-- The recursion bound in `findValueAux` is immaterial: any bound of at least
`addr.length + 1 - start` (which over-approximates the depth of the Python
recursion, since each recursive call strictly increases `start` while keeping
it `≤ addr.length`) yields the same result. -/
theorem findValueAux_fuel :
    ∀ (f1 : Nat) {f2 start : Nat} {addr pat : Chars} {used : Finset ℕ},
      addr.length + 1 - start ≤ f1 → addr.length + 1 - start ≤ f2 →
      findValueAux addr pat used start f1 = findValueAux addr pat used start f2
  | 0, f2, start, addr, pat, used, h1, h2 => by
    have hst : addr.length + 1 ≤ start := by omega
    match f2 with
    | 0 => rfl
    | f2 + 1 =>
      simp only [findValueAux, findFrom_none_of_lt hst]
  | f1 + 1, f2, start, addr, pat, used, h1, h2 => by
    match f2 with
    | 0 =>
      have hst : addr.length + 1 ≤ start := by omega
      simp only [findValueAux, findFrom_none_of_lt hst]
    | f2 + 1 =>
      simp only [findValueAux]
      split
      · rfl
      · rename_i pos hfind
        split
        · rename_i hc
          obtain ⟨hsp, hle, -⟩ := findFrom_some hfind
          have hplen : 1 ≤ pat.length := by
            have hne : (used ∩ Finset.Ico pos (pos + pat.length)).Nonempty :=
              of_decide_eq_true hc
            obtain ⟨x, hx⟩ := hne
            rw [Finset.mem_inter, Finset.mem_Ico] at hx
            omega
          exact findValueAux_fuel f1 (by omega) (by omega)
        · rfl

theorem allSpansOf_append (idx : Indices) (k : Chars) (sps : List Sp) :
    allSpansOf (idx ++ [(k, sps)]) = allSpansOf idx ++ sps := by
  simp [allSpansOf, List.flatMap_append]

/-- The per-span facts and pairwise disjointness maintained while `indices` is
built.  `SpBound` also records that a span's window is inside the used set. -/
def SpBound (addr : Chars) (u : Finset ℕ) (s : Sp) : Prop :=
  s.1 ≤ s.2 ∧ s.2 ≤ addr.length ∧ Finset.Ico s.1 s.2 ⊆ u

def SpsDisj (l : List Sp) : Prop :=
  List.Pairwise (fun s t => Disjoint (Finset.Ico s.1 s.2) (Finset.Ico t.1 t.2)) l

theorem findValue_step {addr pat : Chars} {used : Finset ℕ} {pe : Sp}
    (h : findValue addr pat used 0 = some pe) :
    SpBound addr (used ∪ Finset.Ico pe.1 pe.2) pe ∧ Disjoint (Finset.Ico pe.1 pe.2) used := by
  obtain ⟨h1, h2, h3⟩ := findValueAux_some (addr.length + 1) 0 h
  refine ⟨⟨by omega, h2, Finset.subset_union_right⟩, ?_⟩
  rw [Finset.disjoint_iff_inter_eq_empty, Finset.inter_comm]
  exact h3

theorem commaFold_inv (addr : Chars) :
    ∀ (pieces : List Chars) (acc : List Sp × Finset ℕ),
      (∀ s ∈ acc.1, SpBound addr acc.2 s) → SpsDisj acc.1 →
      (∀ s ∈ (pieces.foldl (commaStep addr) acc).1,
          SpBound addr (pieces.foldl (commaStep addr) acc).2 s) ∧
      SpsDisj (pieces.foldl (commaStep addr) acc).1 ∧
      acc.2 ⊆ (pieces.foldl (commaStep addr) acc).2 ∧
      (∀ t ∈ (pieces.foldl (commaStep addr) acc).1,
        t ∈ acc.1 ∨ Disjoint (Finset.Ico t.1 t.2) acc.2)
  | [], acc, hb, hd => ⟨hb, hd, fun _ h => h, fun t ht => Or.inl ht⟩
  | v :: rest, acc, hb, hd => by
    rw [List.foldl_cons]
    match hfv : findValue addr v acc.2 0 with
    | none =>
      have hstep : commaStep addr acc v = acc := by
        rw [commaStep, hfv]
      rw [hstep]
      exact commaFold_inv addr rest acc hb hd
    | some pe =>
      have hstep : commaStep addr acc v = (acc.1 ++ [pe], acc.2 ∪ Finset.Ico pe.1 pe.2) := by
        rw [commaStep, hfv]
      rw [hstep]
      obtain ⟨hpe, hdisj⟩ := findValue_step hfv
      have hb' : ∀ s ∈ acc.1 ++ [pe], SpBound addr (acc.2 ∪ Finset.Ico pe.1 pe.2) s := by
        intro s hs
        rcases List.mem_append.mp hs with hs | hs
        · obtain ⟨b1, b2, b3⟩ := hb s hs
          exact ⟨b1, b2, b3.trans Finset.subset_union_left⟩
        · rw [List.mem_singleton] at hs
          subst hs
          exact hpe
      have hd' : SpsDisj (acc.1 ++ [pe]) := by
        rw [SpsDisj, List.pairwise_append]
        refine ⟨hd, List.pairwise_singleton _ _, ?_⟩
        intro s hs t ht
        rw [List.mem_singleton] at ht
        subst ht
        exact Finset.disjoint_of_subset_left (hb s hs).2.2 hdisj.symm
      obtain ⟨r1, r2, r3, r4⟩ := commaFold_inv addr rest (acc.1 ++ [pe], _) hb' hd'
      refine ⟨r1, r2, Finset.subset_union_left.trans r3, ?_⟩
      intro t ht
      rcases r4 t ht with ht' | ht'
      · rcases List.mem_append.mp ht' with h | h
        · exact Or.inl h
        · rw [List.mem_singleton] at h
          subst h
          exact Or.inr hdisj
      · exact Or.inr (Finset.disjoint_of_subset_right Finset.subset_union_left ht')

theorem indicesFold_inv (addr : Chars) :
    ∀ (entities : List (Chars × Chars)) (st : Indices × Finset ℕ),
      (∀ s ∈ allSpansOf st.1, SpBound addr st.2 s) → SpsDisj (allSpansOf st.1) →
      (∀ s ∈ allSpansOf (entities.foldl (indicesStep addr) st).1,
        SpBound addr (entities.foldl (indicesStep addr) st).2 s) ∧
      SpsDisj (allSpansOf (entities.foldl (indicesStep addr) st).1)
  | [], st, hb, hd => ⟨hb, hd⟩
  | kv :: rest, st, hb, hd => by
    rw [List.foldl_cons]
    by_cases hcomma : ',' ∈ kv.2
    · have hstep : indicesStep addr st kv =
          (st.1 ++ [(kv.1, (((kv.2.splitOn ',').map pyStrip).foldl (commaStep addr) ([], st.2)).1)],
            (((kv.2.splitOn ',').map pyStrip).foldl (commaStep addr) ([], st.2)).2) := by
        rw [indicesStep, if_pos hcomma]
      rw [hstep]
      obtain ⟨r1, r2, r3, r4⟩ := commaFold_inv addr ((kv.2.splitOn ',').map pyStrip) ([], st.2)
        (by intro s hs; simp at hs) (List.Pairwise.nil)
      apply indicesFold_inv addr rest
      · intro s hs
        rw [allSpansOf_append, List.mem_append] at hs
        rcases hs with hs | hs
        · obtain ⟨b1, b2, b3⟩ := hb s hs
          exact ⟨b1, b2, b3.trans r3⟩
        · exact r1 s hs
      · rw [allSpansOf_append, SpsDisj, List.pairwise_append]
        refine ⟨hd, r2, ?_⟩
        intro s hs t ht
        rcases r4 t ht with ht' | ht'
        · simp at ht'
        · exact (Finset.disjoint_of_subset_left (hb s hs).2.2 ht'.symm).symm.symm
    · match hfv : findValue addr kv.2 st.2 0 with
      | none =>
        have hstep : indicesStep addr st kv = st := by
          rw [indicesStep, if_neg hcomma, hfv]
        rw [hstep]
        exact indicesFold_inv addr rest st hb hd
      | some pe =>
        have hstep : indicesStep addr st kv =
            (st.1 ++ [(kv.1, [pe])], st.2 ∪ Finset.Ico pe.1 pe.2) := by
          rw [indicesStep, if_neg hcomma, hfv]
        rw [hstep]
        obtain ⟨hpe, hdisj⟩ := findValue_step hfv
        apply indicesFold_inv addr rest
        · intro s hs
          rw [allSpansOf_append, List.mem_append] at hs
          rcases hs with hs | hs
          · obtain ⟨b1, b2, b3⟩ := hb s hs
            exact ⟨b1, b2, b3.trans Finset.subset_union_left⟩
          · rw [List.mem_singleton] at hs
            subst hs
            exact hpe
        · rw [allSpansOf_append, SpsDisj, List.pairwise_append]
          refine ⟨hd, List.pairwise_singleton _ _, ?_⟩
          intro s hs t ht
          rw [List.mem_singleton] at ht
          subst ht
          exact Finset.disjoint_of_subset_left (hb s hs).2.2 hdisj.symm

theorem indices_inv (entities : List (Chars × Chars)) (addr : Chars) :
    (∀ s ∈ allSpansOf (indicesOf entities addr),
      SpBound addr (indicesUsedOf entities addr).2 s) ∧
    SpsDisj (allSpansOf (indicesOf entities addr)) := by
  have := indicesFold_inv addr entities ([], ∅)
    (by intro s hs; simp [allSpansOf] at hs) (List.Pairwise.nil)
  exact this

theorem nestedFold_eq :
    ∀ (idx : Indices) (u : Finset ℕ),
      idx.foldl (fun u2 kv => kv.2.foldl (fun u3 s => u3 ∪ Finset.Ico s.1 s.2) u2) u =
        (allSpansOf idx).foldl (fun u3 s => u3 ∪ Finset.Ico s.1 s.2) u
  | [], _ => rfl
  | kv :: rest, u => by
    rw [List.foldl_cons]
    have : allSpansOf (kv :: rest) = kv.2 ++ allSpansOf rest := by
      simp [allSpansOf]
    rw [this, List.foldl_append]
    exact nestedFold_eq rest _

theorem mem_foldUnion :
    ∀ (l : List Sp) (u : Finset ℕ) (i : ℕ),
      (i ∈ l.foldl (fun u3 s => u3 ∪ Finset.Ico s.1 s.2) u ↔
        i ∈ u ∨ ∃ s ∈ l, s.1 ≤ i ∧ i < s.2)
  | [], u, i => by simp
  | s :: rest, u, i => by
    rw [List.foldl_cons, mem_foldUnion rest _ i]
    rw [Finset.mem_union, Finset.mem_Ico]
    constructor
    · rintro ((h | h) | ⟨t, ht, h⟩)
      · exact Or.inl h
      · exact Or.inr ⟨s, List.mem_cons_self _ _, h⟩
      · exact Or.inr ⟨t, List.mem_cons_of_mem _ ht, h⟩
    · rintro (h | ⟨t, ht, h⟩)
      · exact Or.inl (Or.inl h)
      · rcases List.mem_cons.mp ht with rfl | ht
        · exact Or.inl (Or.inr h)
        · exact Or.inr ⟨t, ht, h⟩

theorem card_foldUnion :
    ∀ (l : List Sp) (u : Finset ℕ),
      (∀ s ∈ l, Disjoint (Finset.Ico s.1 s.2) u) → SpsDisj l →
      (l.foldl (fun u3 s => u3 ∪ Finset.Ico s.1 s.2) u).card =
        u.card + (l.map (fun s => s.2 - s.1)).sum
  | [], u, _, _ => by simp
  | s :: rest, u, hdu, hd => by
    rw [List.foldl_cons]
    have hrest := card_foldUnion rest (u ∪ Finset.Ico s.1 s.2)
      (by
        intro t ht
        rw [Finset.disjoint_union_right]
        exact ⟨hdu t (List.mem_cons_of_mem _ ht),
          (List.rel_of_pairwise_cons hd ht).symm⟩)
      hd.of_cons
    rw [hrest, Finset.card_union_of_disjoint (hdu s (List.mem_cons_self _ _)).symm,
      Nat.card_Ico]
    simp
    omega

theorem length_filter_not :
    ∀ (l : List ℕ) (p : ℕ → Bool),
      (l.filter p).length + (l.filter (fun i => !(p i))).length = l.length
  | [], _ => rfl
  | x :: rest, p => by
    have h := length_filter_not rest p
    rw [List.filter_cons, List.filter_cons]
    cases hx : p x <;> simp [hx] <;> omega

theorem filter_mem_card :
    ∀ (n : ℕ) (u : Finset ℕ), (∀ x ∈ u, x < n) →
      ((List.range n).filter (fun i => decide (i ∈ u))).length = u.card
  | 0, u, hu => by
    have : u = ∅ := by
      rw [Finset.eq_empty_iff_forall_not_mem]
      intro x hx
      exact absurd (hu x hx) (by omega)
    simp [this]
  | n + 1, u, hu => by
    rw [List.range_succ, List.filter_append, List.length_append]
    have hcong : (List.range n).filter (fun i => decide (i ∈ u)) =
        (List.range n).filter (fun i => decide (i ∈ u.erase n)) := by
      refine List.filter_congr (fun x hx => ?_)
      rw [List.mem_range] at hx
      by_cases hxu : x ∈ u
      · have : x ∈ u.erase n := Finset.mem_erase.mpr ⟨by omega, hxu⟩
        rw [decide_eq_true hxu, decide_eq_true this]
      · have : ¬ x ∈ u.erase n := fun hc => hxu (Finset.mem_of_mem_erase hc)
        rw [decide_eq_false hxu, decide_eq_false this]
    rw [hcong, filter_mem_card n (u.erase n)
      (fun x hx => by
        have h1 := Finset.mem_erase.mp hx
        have h2 := hu x h1.2
        omega)]
    by_cases hn : n ∈ u
    · rw [List.filter_cons, decide_eq_true hn]
      have := Finset.card_erase_add_one hn
      simp only [if_true, List.filter_nil, List.length_cons, List.length_nil]
      omega
    · rw [List.filter_cons, decide_eq_false hn]
      have he : u.erase n = u := Finset.erase_eq_of_not_mem hn
      simp only [Bool.false_eq_true, if_false, List.filter_nil, List.length_nil, he]
      omega

/-- C3 (amended): for every classifier run, the located spans across ALL
categories (not merely those assigned to a level) are pairwise disjoint; an
offset is in `used_indices_final` exactly when some located span covers it;
and every character offset of Text is counted exactly once between the located
spans and the pre-strip remainder that `remark` is built from. -/
theorem c3_theorem (entities : List (Chars × Chars)) (addr : Chars) :
    SpsDisj (allSpansOf (indicesOf entities addr)) ∧
    (∀ i, i ∈ usedFinalOf (indicesOf entities addr) ↔
      ∃ s ∈ allSpansOf (indicesOf entities addr), s.1 ≤ i ∧ i < s.2) ∧
    ((allSpansOf (indicesOf entities addr)).map (fun s => s.2 - s.1)).sum +
      (remainingOf addr (indicesOf entities addr)).length = addr.length := by
  obtain ⟨hb, hpw⟩ := indices_inv entities addr
  have hmem : ∀ i, i ∈ usedFinalOf (indicesOf entities addr) ↔
      ∃ s ∈ allSpansOf (indicesOf entities addr), s.1 ≤ i ∧ i < s.2 := by
    intro i
    rw [usedFinalOf, nestedFold_eq, mem_foldUnion]
    simp
  refine ⟨hpw, hmem, ?_⟩
  have hcard : (usedFinalOf (indicesOf entities addr)).card =
      ((allSpansOf (indicesOf entities addr)).map (fun s => s.2 - s.1)).sum := by
    rw [usedFinalOf, nestedFold_eq, card_foldUnion _ ∅ (fun s _ => Finset.disjoint_empty_right _) hpw]
    simp
  have hbound : ∀ x ∈ usedFinalOf (indicesOf entities addr), x < addr.length := by
    intro x hx
    rw [hmem] at hx
    obtain ⟨s, hs, h1, h2⟩ := hx
    have := (hb s hs).2.1
    omega
  have hcnt := filter_mem_card addr.length (usedFinalOf (indicesOf entities addr)) hbound
  have hsplit := length_filter_not (List.range addr.length)
    (fun i => decide (i ∈ usedFinalOf (indicesOf entities addr)))
  have hrem : (remainingOf addr (indicesOf entities addr)).length =
      ((List.range addr.length).filter
        (fun i => !(decide (i ∈ usedFinalOf (indicesOf entities addr))))).length := by
    rw [remainingOf, List.length_map]
  have hrange := List.length_range addr.length
  omega

/-- C3 counterexample: `Text = "x"`, `CategoryMap = {assist: "x"}`.  The
`assist` span `(0,1)` feeds no level: every level field except the defaulted
`level1 = "广东省"` (which does not occur in Text) is empty and `remark` is
empty, yet offset 0 of Text is covered by the located span — so the offsets of
levels 1–11 plus `remark` do NOT cover the full offset range. -/
theorem c3_counterexample :
    (classify_elements_to_11_levels [("assist".toList, "x".toList)] "x".toList).remark = [] ∧
    (classify_elements_to_11_levels [("assist".toList, "x".toList)] "x".toList).level1 =
      "广东省".toList ∧
    findFrom "x".toList "广东省".toList 0 = none ∧
    (classify_elements_to_11_levels [("assist".toList, "x".toList)] "x".toList).level2 = [] ∧
    (classify_elements_to_11_levels [("assist".toList, "x".toList)] "x".toList).level3 = [] ∧
    (classify_elements_to_11_levels [("assist".toList, "x".toList)] "x".toList).level4 = [] ∧
    (classify_elements_to_11_levels [("assist".toList, "x".toList)] "x".toList).level5 = [] ∧
    (classify_elements_to_11_levels [("assist".toList, "x".toList)] "x".toList).level6 = [] ∧
    (classify_elements_to_11_levels [("assist".toList, "x".toList)] "x".toList).level7 = [] ∧
    (classify_elements_to_11_levels [("assist".toList, "x".toList)] "x".toList).level8 = [] ∧
    (classify_elements_to_11_levels [("assist".toList, "x".toList)] "x".toList).level9 = [] ∧
    (classify_elements_to_11_levels [("assist".toList, "x".toList)] "x".toList).level10 = [] ∧
    (classify_elements_to_11_levels [("assist".toList, "x".toList)] "x".toList).level11 = [] ∧
    allSpansOf (indicesOf [("assist".toList, "x".toList)] "x".toList) = [(0, 1)] ∧
    "x".toList.length = 1 := by
  decide
